import Mathlib

/-!
# miniflightradar — verification of the specified behaviour

A shallow embedding, in Lean 4, of the parts of the `maniack/miniflightradar`
Go repository that the specification's claims are about:

* `storage/storage.go` — the TTL-indexed key/value store (`UpsertStates`,
  `RebuildNow`, `LatestByCallsign`, `IsLandedWithin`, `TouchNow`) together with
  the callsign/airline-code helpers (`normalizeCallsign`, `normalizeICAO`,
  `clamp`, `normAngle360`, `convertCallsignAlternate`, the IATA↔ICAO table);
* `backend/ws.go` — the diff-streaming WebSocket session of
  `FlightsWSHandler` (snapshot map, diff computation, `seq` numbering,
  ACK-gated backpressure, viewport handling) and `BroadcastShutdown`;
* `backend/backend.go` — `IngestLoop` / `FetchOpenSkyData` error handling;
* `app/run.go` — the shutdown sequence of `Run`;
* the `security` package (its source is included verbatim in the repository's
  README) — `validateJWT` and `ValidateJWTFromRequest`.

Modelling conventions:

* Go `string` values are modelled as `List Char` (`Str`); the Go code only
  ever manipulates ASCII here, where byte-wise and rune-wise processing agree.
* Go `float64` is modelled by `GF`: either a NaN, an infinity, or an exact
  rational.  All comparisons/clamps performed by the code are exact, so no
  rounding model is needed.  The single transcendental function
  (`haversineMeters`) is kept as an explicit function parameter `hav`.
* Go `int64` overflow never occurs on the values the theorems quantify over;
  the float→int conversion applies amd64 `cvttsd2si` semantics for
  out-of-range/non-finite inputs.
* BuntDB is an ordered string key space with per-key TTLs.  The three
  disjoint key families (`pos:*`, `now:*`, `map:cs:*`) are kept as three
  association lists; `pos` keys keep their full composed string form because
  `RebuildNow` re-parses them, while the constant prefixes `now:` / `map:cs:`
  are dropped from the other two families (prefixing by a fixed string is
  injective, so lookups are unaffected).  Scans in ascending key order sort
  by byte-wise lexicographic comparison, exactly as BuntDB does.
* Go runtime panics (out-of-range indexing) are modelled by `Option`:
  a function returns `none` where the Go original panics.
-/

namespace MiniFlightRadar

/-! ## Strings: Go `strings` helpers on `List Char` -/

/-- Go strings modelled as lists of characters. -/
abbrev Str := List Char

/-- Literal helper: the character list of a Lean string literal. -/
def str (s : String) : Str := s.toList

/-- ASCII whitespace recognised by Go's `unicode.IsSpace`
(space, \t, \n, \v, \f, \r; the inputs here are ASCII). -/
def isSpaceGo (c : Char) : Bool :=
  c.toNat = 32 || c.toNat = 9 || c.toNat = 10 || c.toNat = 11 || c.toNat = 12 || c.toNat = 13

/-- `unicode.ToUpper` on the ASCII range (all data handled by the code is ASCII). -/
def goUpChar (c : Char) : Char :=
  if 97 ≤ c.toNat ∧ c.toNat ≤ 122 then Char.ofNat (c.toNat - 32) else c

/-- `unicode.ToLower` on the ASCII range. -/
def goLowChar (c : Char) : Char :=
  if 65 ≤ c.toNat ∧ c.toNat ≤ 90 then Char.ofNat (c.toNat + 32) else c

/-- Left part of Go `strings.TrimSpace`. -/
def ltrim (s : Str) : Str := s.dropWhile isSpaceGo

/-- Right part of Go `strings.TrimSpace`. -/
def rtrim (s : Str) : Str := (s.reverse.dropWhile isSpaceGo).reverse

/-- Go `strings.TrimSpace`. -/
def goTrim (s : Str) : Str := rtrim (ltrim s)

/-- Go `strings.ToUpper`. -/
def goUp (s : Str) : Str := s.map goUpChar

/-- Go `strings.ToLower`. -/
def goLow (s : Str) : Str := s.map goLowChar

/-- `storage.normalizeCallsign`: `strings.ToUpper(strings.TrimSpace(s))`. -/
def normalizeCallsign (s : Str) : Str := goUp (goTrim s)

/-- `storage.normalizeICAO`: `strings.ToLower(strings.TrimSpace(s))`. -/
def normalizeICAO (s : Str) : Str := goLow (goTrim s)

/-- Byte-wise lexicographic `<` on keys, as BuntDB's default key ordering. -/
def strLt : Str → Str → Bool
  | [], [] => false
  | [], _ :: _ => true
  | _ :: _, [] => false
  | a :: s, b :: t =>
    if a.toNat < b.toNat then true
    else if b.toNat < a.toNat then false
    else strLt s t

/-- Does `s` start with `p`?  (Go `strings.HasPre`-style check used to model
the `pattern*` key scans of BuntDB.) -/
def startsWith : Str → Str → Bool
  | _, [] => true
  | [], _ :: _ => false
  | c :: s, d :: p => c = d && startsWith s p

/-! ## Go float64 values -/

/-- A Go `float64` as the code observes it: NaN, ±∞, or an exact number.
The code only compares, clamps and takes exact remainders, so rationals are a
faithful carrier for the finite values it manipulates. -/
inductive GF
  | nan
  | pinf
  | ninf
  | fin (q : ℚ)
deriving DecidableEq, Repr

/-- `math.IsNaN`. -/
def GF.isNaN : GF → Bool
  | .nan => true
  | _ => false

/-- `math.IsInf(v, 0)`. -/
def GF.isInf : GF → Bool
  | .pinf => true
  | .ninf => true
  | _ => false

/-- Truncation of a rational toward zero (Go's float→int conversion on
in-range values): `Int.tdiv` is num/den division truncated toward zero. -/
def truncQ (q : ℚ) : Int := q.num.tdiv q.den

/-- Difference of two rationals, written out over the common denominator
(`mkRat` normalises).  Equal to `a - b`; spelled this way because the
library's `Rat.sub` is `@[irreducible]` and cannot be evaluated by `decide`
— `qSub_eq_sub` below proves the identity. -/
def qSub (a b : ℚ) : ℚ := mkRat (a.num * b.den - b.num * a.den) (a.den * b.den)

def i64min : Int := -(2 ^ 63)
def i64max : Int := 2 ^ 63 - 1

/-- Go `int64(f)` for a `float64` `f`, with amd64 `cvttsd2si` semantics:
NaN, infinities and out-of-range values all produce `math.MinInt64`. -/
def f64toI64 : GF → Int
  | .fin q =>
    let t := truncQ q
    if t < i64min ∨ i64max < t then i64min else t
  | _ => i64min

/-- `storage.clamp`: NaN/±∞ become 0, then the value is clamped to `[lo,hi]`. -/
def clampGo (v : GF) (lo hi : ℚ) : ℚ :=
  match v with
  | .fin q => if q < lo then lo else if hi < q then hi else q
  | _ => 0

/-- Go `math.Mod(x, y)`: `x - trunc(x/y)*y`, the remainder keeping the sign
of `x` (exact here).  Written over the common denominator `x.den * y.den`:
`x/y = (x.num*y.den)/(x.den*y.num)`, its truncation toward zero is the
`tdiv`, and `x - t*y = (x.num*y.den - t*y.num*x.den) / (x.den*y.den)`. -/
def goModQ (x y : ℚ) : ℚ :=
  let t : Int := (x.num * (y.den : Int)).tdiv ((x.den : Int) * y.num)
  mkRat (x.num * (y.den : Int) - t * y.num * (x.den : Int)) (x.den * y.den)

/-- `storage.normAngle360`: NaN/±∞ → 0, otherwise normalise to `[0, 360)`.
The negative branch adds 360 (written over the denominator so that it
evaluates; `mkRat (r.num + 360*r.den) r.den = r + 360`). -/
def normAngle360 (v : GF) : ℚ :=
  match v with
  | .fin q =>
    let r := goModQ q 360
    let r := if r < 0 then mkRat (r.num + 360 * (r.den : Int)) r.den else r
    if r = 360 then 0 else r
  | _ => 0

/-! ## Decoded JSON / `interface{}` values of an OpenSky row -/

/-- A decoded `interface{}` cell as produced by `json.Unmarshal` into
`[][]interface{}`: JSON strings, numbers (Go `float64`), booleans and null. -/
inductive GoVal
  | vstr (s : Str)
  | vnum (f : GF)
  | vbool (b : Bool)
  | vnull
deriving DecidableEq, Repr

/-- One raw OpenSky state row. -/
abbrev Row := List GoVal

/-- Indexing used after the bound has been checked (never reached out of
range by the model: the out-of-range case is reified as `none` by the caller). -/
def rowGet (r : Row) (i : Nat) : GoVal := r.getD i .vnull

/-- `storage.toFloat`: succeeds exactly on numeric cells. -/
def toFloat : GoVal → Option GF
  | .vnum f => some f
  | _ => none

/-- `storage.toInt64` on a decoded JSON cell (the `float64` case of the Go
switch; the other cases cannot occur after `json.Unmarshal`). -/
def toInt64 : GoVal → Option Int
  | .vnum f => some (f64toI64 f)
  | _ => none

/-- The `v, _ := st[i].(string)` type assertion: non-strings yield `""`. -/
def asGoString : GoVal → Str
  | .vstr s => s
  | _ => []

/-! ## The store -/

/-- `storage.Point` (the first, current revision of `storage.go`). -/
structure Point where
  icao24 : Str
  callsign : Str
  lon : ℚ
  lat : ℚ
  alt : ℚ
  track : ℚ
  speed : ℚ
  ts : Int
deriving DecidableEq, Repr

/-- First-match lookup in an association list (BuntDB `tx.Get`). -/
def getA {α : Type} : List (Str × α) → Str → Option α
  | [], _ => none
  | (k, v) :: rest, key => if k = key then some v else getA rest key

/-- Replace-or-append update of an association list (BuntDB `tx.Set`). -/
def setA {α : Type} : List (Str × α) → Str → α → List (Str × α)
  | [], key, v => [(key, v)]
  | (k, w) :: rest, key, v =>
    if k = key then (key, v) :: rest else (k, w) :: setA rest key v

/-- Insertion sort by byte-wise key order — the ascending key iteration order
of BuntDB's `tx.AscendKeys`. -/
def insertByKey {α : Type} (e : Str × α) : List (Str × α) → List (Str × α)
  | [] => [e]
  | f :: rest => if strLt e.1 f.1 then e :: f :: rest else f :: insertByKey e rest

def sortByKey {α : Type} (l : List (Str × α)) : List (Str × α) :=
  l.foldr insertByKey []

/-- The store state: the three key families of the single BuntDB key space
(`pos:*` with full keys, `now:*` and `map:cs:*` keyed by the variable part),
with each entry carrying the TTL it was last written with (seconds). -/
structure Store where
  retention : Int
  nowTTL : Int
  pos : List (Str × (Point × Int))
  now : List (Str × (Point × Int))
  mapcs : List (Str × (Str × Int))
deriving DecidableEq, Repr

/-- A freshly opened, empty store (`storage.Open` defaults `nowTTL` to 60 s). -/
def emptyStore (retention : Int) : Store :=
  ⟨retention, 60, [], [], []⟩

/-! ## Airline-code table and callsign conversion -/

/-- `storage.iataToIcao`, the compile-time IATA→ICAO airline prefix table. -/
def iataIcaoTable : List (Str × Str) :=
  [(str "AA", str "AAL"), (str "DL", str "DAL"), (str "UA", str "UAL"),
   (str "AS", str "ASA"), (str "B6", str "JBU"), (str "NK", str "NKS"),
   (str "F9", str "FFT"), (str "G4", str "AAY"), (str "WS", str "WJA"),
   (str "AC", str "ACA"), (str "AF", str "AFR"), (str "KL", str "KLM"),
   (str "BA", str "BAW"), (str "LH", str "DLH"), (str "LX", str "SWR"),
   (str "OS", str "AUA"), (str "SN", str "BEL"), (str "IB", str "IBE"),
   (str "VY", str "VLG"), (str "TP", str "TAP"), (str "AZ", str "ITY"),
   (str "FR", str "RYR"), (str "U2", str "EZY"), (str "W6", str "WZZ"),
   (str "TK", str "THY"), (str "EK", str "UAE"), (str "QR", str "QTR"),
   (str "EY", str "ETD"), (str "FZ", str "FDB"), (str "SU", str "AFL"),
   (str "S7", str "SBI"), (str "U6", str "SVR"), (str "UT", str "UTA"),
   (str "LO", str "LOT"), (str "SK", str "SAS"), (str "AY", str "FIN"),
   (str "DY", str "NOZ"), (str "BT", str "BTI"), (str "A3", str "AEE"),
   (str "CA", str "CCA"), (str "MU", str "CES"), (str "CZ", str "CSN"),
   (str "NH", str "ANA"), (str "JL", str "JAL"), (str "QF", str "QFA"),
   (str "NZ", str "ANZ"), (str "KE", str "KAL"), (str "OZ", str "AAR"),
   (str "ET", str "ETH"), (str "KQ", str "KQA"), (str "MS", str "MSR"),
   (str "SV", str "SVA"), (str "SA", str "SAA")]

/-- `storage.icaoToIata`, derived at `init` by inverting the table.  (The Go
map-iteration order is irrelevant because the ICAO codes are pairwise
distinct, which `decide` confirms below.) -/
def icaoIataTable : List (Str × Str) := iataIcaoTable.map (fun p => (p.2, p.1))

/-- ASCII uppercase letter test: the `ch < 'A' || ch > 'Z'` loop condition of
`convertCallsignAlternate` (byte-level; the data is ASCII). -/
def isUpperAlpha (c : Char) : Bool := 65 ≤ c.toNat && c.toNat ≤ 90

/-- `storage.convertCallsignAlternate`: swap a known 2-letter IATA /
3-letter ICAO airline prefix, keeping the suffix; `""` when not possible. -/
def convertCallsignAlternate (cs0 : Str) : Str :=
  let cs := normalizeCallsign cs0
  if cs = [] then []
  else
    let pre := cs.takeWhile isUpperAlpha
    let suf := cs.dropWhile isUpperAlpha
    if pre.length = 0 then []
    else if pre.length = 2 then
      match getA iataIcaoTable pre with
      | some icao => icao ++ suf
      | none => []
    else if pre.length = 3 then
      match getA icaoIataTable pre with
      | some iata => iata ++ suf
      | none => []
    else []

/-! ## Position keys: `pos:{icao}:{ts:010d}` -/

/-- Decimal digits of `n`, most significant first (`'0'` for zero handled by
the caller's padding; `Nat.digits` is little-endian). -/
def decRepr (n : Nat) : Str :=
  if n = 0 then ['0'] else ((Nat.digits 10 n).map Nat.digitChar).reverse

/-- The digit at weight `10^(k-1-j)` of `n`, for `j < k`: a positional
rendering of `n` zero-padded to exactly `k` digits (faithful to `%010d` for
`n < 10^k`). -/
def padDigits : Nat → Nat → Str
  | 0, _ => []
  | k + 1, n => Nat.digitChar (n / 10 ^ k % 10) :: padDigits k n

/-- Go `fmt.Sprintf("%010d", t)`. -/
def pad10 (t : Int) : Str :=
  if t < 0 then
    let d := decRepr (-t).toNat
    '-' :: (List.replicate (9 - d.length) '0' ++ d)
  else if t < 10 ^ 10 then padDigits 10 t.toNat
  else decRepr t.toNat

/-- The full `pos:{icao}:{ts:010d}` key. -/
def posKey (icao : Str) (ts : Int) : Str :=
  str "pos:" ++ icao ++ str ":" ++ pad10 ts

/-! ## `storage.UpsertStates` -/

/-- Processing of a single row inside the `UpsertStates` transaction
(`storage.go`, first revision, lines 144–212).  `none` models the Go runtime
panic: the code checks only `len(st) < 7` but later evaluates `st[13]`, so a
row that passes the icao/lon/lat validation with 7 ≤ len < 14 fields indexes
out of range. -/
def upsertRow (nowT : Int) (s : Store) (st : Row) : Option Store :=
  if st.length < 7 then some s
  else
    let icao := normalizeICAO (asGoString (rowGet st 0))
    if icao = [] then some s
    else
      let callsign := normalizeCallsign (asGoString (rowGet st 1))
      match toFloat (rowGet st 5), toFloat (rowGet st 6) with
      | some lonF, some latF =>
        if lonF.isNaN || latF.isNaN then some s
        else
          let lon := clampGo lonF (-180) 180
          let lat := clampGo latF (-90) 90
          let ts0 : Int :=
            match toInt64 (rowGet st 4) with
            | some v =>
              if 0 < v then v
              else match toInt64 (rowGet st 3) with
                   | some w => w
                   | none => 0
            | none =>
              match toInt64 (rowGet st 3) with
              | some w => w
              | none => 0
          let ts := if ts0 ≤ 0 then nowT else ts0
          -- Go evaluates `toFloat(st[13])` next; with fewer than 14 fields
          -- this indexes out of range and panics.
          if 13 < st.length then
            let altF : GF :=
              match toFloat (rowGet st 13) with
              | some v => v
              | none =>
                match toFloat (rowGet st 7) with
                | some v => v
                | none => .fin 0
            let alt : ℚ :=
              match altF with
              | .fin q => if q < 0 then 0 else q
              | _ => 0
            let track : ℚ :=
              match toFloat (rowGet st 10) with
              | some v => normAngle360 v
              | none => 0
            let speed : ℚ :=
              match toFloat (rowGet st 9) with
              | some v =>
                match v with
                | .fin q => if q < 0 then 0 else q
                | _ => 0
              | none => 0
            let p : Point := ⟨icao, callsign, lon, lat, alt, track, speed, ts⟩
            let s1 := { s with pos := setA s.pos (posKey icao ts) (p, s.retention) }
            let s2 := { s1 with now := setA s1.now icao (p, s1.nowTTL) }
            let s3 :=
              if callsign = [] then s2
              else
                let s3a := { s2 with mapcs := setA s2.mapcs callsign (icao, s2.retention) }
                let altCS := convertCallsignAlternate callsign
                if altCS = [] then s3a
                else { s3a with mapcs := setA s3a.mapcs altCS (icao, s3a.retention) }
            some s3
          else none
      | _, _ => some s

/-- `storage.UpsertStates`: one transaction over the whole batch; `none`
models the panic aborting the batch (and the ingest goroutine). -/
def UpsertStates (nowT : Int) (states : List Row) (s : Store) : Option Store :=
  states.foldlM (upsertRow nowT) s

/-! ## `storage.RebuildNow` -/

/-- First index of `':'` (Go `strings.IndexByte(rest, ':')`). -/
def idxOfColon : Str → Option Nat
  | [] => none
  | c :: rest =>
    if c = ':' then some 0
    else match idxOfColon rest with
         | some i => some (i + 1)
         | none => none

/-- The icao extracted from a `pos:{icao}:{ts}` key by `RebuildNow`
(`storage.go` lines 96–106): keys of length ≤ 5, or whose remainder after
dropping `"pos:"` has no `':'` past position 0, are skipped. -/
def parsePosKey (key : Str) : Option Str :=
  if key.length ≤ 5 then none
  else
    let rest := key.drop 4
    match idxOfColon rest with
    | none => none
    | some sep => if sep = 0 then none else some (rest.take sep)

/-- The `latest` map built by `RebuildNow`'s ascending `pos:*` scan:
last assignment per icao wins. -/
def rebuildLatest (s : Store) : List (Str × Point) :=
  (sortByKey s.pos).foldl
    (fun acc e =>
      match parsePosKey e.1 with
      | none => acc
      | some icao => setA acc icao e.2.1)
    []

/-- `storage.RebuildNow`: collect the last value per icao over an ascending
scan of `pos:*` (last assignment wins), then write `now:{icao}` with the
short `nowTTL` and re-establish `map:cs:{callsign}` with the retention TTL.
The Go iteration over the `latest` map has randomised order; the model
iterates in the association list's insertion order (the theorems below never
depend on the order except through explicitly stated hypotheses). -/
def RebuildNow (s : Store) : Store :=
  let latest := rebuildLatest s
  if latest = [] then s
  else
    latest.foldl
      (fun st e =>
        let st1 := { st with now := setA st.now e.1 (e.2, s.nowTTL) }
        if e.2.callsign = [] then st1
        else
          { st1 with
            mapcs := setA st1.mapcs (normalizeCallsign e.2.callsign) (e.1, s.retention) })
      s

/-! ## Store queries -/

/-- `storage.LatestByCallsign`: resolve the callsign mapping (falling back to
the airline-code alternate form), then return the decoded `now:{icao}` value. -/
def LatestByCallsign (s : Store) (callsign0 : Str) : Option Point :=
  let callsign := normalizeCallsign callsign0
  let icao? : Option Str :=
    match getA s.mapcs callsign with
    | some v => some v.1
    | none =>
      let altCS := convertCallsignAlternate callsign
      if altCS = [] then none
      else
        match getA s.mapcs altCS with
        | some v => some v.1
        | none => none
  match icao? with
  | none => none
  | some icao =>
    match getA s.now icao with
    | some v => some v.1
    | none => none

/-- `storage.TouchNow`: refresh the TTL of every `now:*` entry, keeping the
values; a non-positive argument falls back to `nowTTL`. -/
def TouchNow (s : Store) (ttl : Int) : Store :=
  let t := if ttl ≤ 0 then s.nowTTL else ttl
  { s with now := s.now.map (fun e => (e.1, e.2.1, t)) }

/-- Modelled from the spec: `storage.CurrentAll` is absent from the provided
sources (only its callers in `backend/ws.go` appear).  Per the spec it scans
the `now:*` index and returns all points, with no landed filter. -/
def CurrentAll (s : Store) : List Point :=
  (sortByKey s.now).map (fun e => e.2.1)

/-! ## `storage.IsLandedWithin` -/

/-- The values under `pos:{icao}:*` in descending key order
(`tx.DescendKeys(prefix+"*", …)`). -/
def posDescFor (s : Store) (icao : Str) : List Point :=
  (((sortByKey s.pos).filter
      (fun e => startsWith e.1 (str "pos:" ++ icao ++ str ":"))).reverse).map
    (fun e => e.2.1)

/-- The scan loop of `IsLandedWithin`: walk the descending samples keeping
the first (`newest`) and the most recent (`oldest`) sample read, counting
them, and stop *after* reading a sample with `ts < cutoff` or the tenth
sample. -/
def landedScan (cutoff : Int) : List Point → Nat → Option Point → Option Point →
    Option Point × Option Point
  | [], _, nw, od => (nw, od)
  | p :: rest, count, nw, _od =>
    let nw' := match nw with | none => some p | some x => some x
    let od' := some p
    let count' := count + 1
    if p.ts < cutoff ∨ 10 ≤ count' then (nw', od')
    else landedScan cutoff rest count' nw' od'

/-- `storage.IsLandedWithin` (`storage.go` lines 354–402).  `hav` stands for
`haversineMeters` (transcendental float math kept abstract; it satisfies
`hav p p = 0` mathematically, which concrete instantiations use).  `window`
is in whole seconds; a non-positive window falls back to 15 minutes, and the
span threshold is the integer division `window / 2` exactly as
`int64((window/time.Second)/2)`. -/
def IsLandedWithin (hav : Point → Point → ℚ) (nowT : Int) (s : Store)
    (icao : Str) (window : Int) : Bool :=
  let w := if window ≤ 0 then 900 else window
  let cutoff := nowT - w
  match landedScan cutoff (posDescFor s icao) 0 none none with
  | (some nw, some od) =>
    if nw.ts - od.ts < w / 2 then false
    else
      decide (nw.speed ≤ mkRat 3 2) && decide (hav od nw < 500) &&
        decide (|qSub nw.alt od.alt| < 10)
  | _ => false

/-! ## The `FlightsWSHandler` session (`backend/ws.go`, second revision)

The per-connection state machine: the select loop's reaction to ACKs, update
notifications, viewport messages and heartbeat ticks, and the `trySend` diff
construction.  Trails are omitted from items: `RecentTrackByICAO` only
decorates upserted items with trail coordinates and none of the claims
concern them (its source is also absent from the provided files). -/

/-- The `item` struct of `FlightsWSHandler` (without the trail). -/
structure Item where
  icao24 : Str
  callsign : Str
  lon : ℚ
  lat : ℚ
  alt : ℚ
  track : ℚ
  speed : ℚ
  ts : Int
deriving DecidableEq, Repr

def itemOfPoint (p : Point) : Item :=
  ⟨p.icao24, p.callsign, p.lon, p.lat, p.alt, p.track, p.speed, p.ts⟩

/-- `makeCur`: build the key→item map (`key = icao24`, falling back to
`strings.TrimSpace(strings.ToUpper(callsign))`; empty keys discarded;
later rows overwrite the map entry) and the item array. -/
def makeCur (pts : List Point) : List (Str × Item) × List Item :=
  pts.foldl
    (fun acc p =>
      let it := itemOfPoint p
      let key := if p.icao24 = [] then goTrim (goUp p.callsign) else p.icao24
      if key = [] then acc else (setA acc.1 key it, acc.2 ++ [it]))
    ([], [])

/-- The `changed` comparison of `FlightsWSHandler`. -/
def itemChanged (a b : Item) : Bool :=
  a.lon ≠ b.lon || a.lat ≠ b.lat || a.alt ≠ b.alt || a.track ≠ b.track ||
    a.speed ≠ b.speed || a.ts ≠ b.ts || a.callsign ≠ b.callsign

/-- The per-session mutable state of `FlightsWSHandler`.  `lastSend` is real
time and is abstracted into the tick events below. -/
structure Sess where
  last : List (Str × Item)
  seq : Int
  inflight : Bool
  bufferHigh : Bool
  pending : Bool
  hasBBox : Bool
  bbox : ℚ × ℚ × ℚ × ℚ
deriving DecidableEq, Repr

/-- The state right after the handler's local declarations:
`pending = true` so the initial snapshot is sent immediately. -/
def sessStart : Sess := ⟨[], 0, false, false, true, false, (0, 0, 0, 0)⟩

/-- A `diff` message: `{type:"diff", seq, upsert, delete}`. -/
structure DiffMsg where
  seq : Int
  upsert : List Item
  del : List Str
deriving DecidableEq, Repr

/-- Messages the session writes on the socket. -/
inductive OutMsg
  | diff (d : DiffMsg)
  | hb
  | ping
deriving DecidableEq, Repr

/-- Client-side and timer events multiplexed by the session's select loop.
Viewport messages carry the four parsed floats of the bbox string (the
string → float parsing of `parseBBox` is abstracted to its numeric result);
`tick longIdle` is the 30-second ticker, with `longIdle` the truth value of
`time.Since(lastSend) > 25s`. -/
inductive Ev
  | ack (seq buffered : Int)
  | update
  | viewport (minLon minLat maxLon maxLat : ℚ)
  | tick (longIdle : Bool)
deriving DecidableEq, Repr

/-- The numeric validity conditions of `parseBBox` (`ws.go` lines 534–553):
coordinates inside the world box, and strictly increasing in both axes. -/
def bboxValid (minLon minLat maxLon maxLat : ℚ) : Bool :=
  !(minLon < -180 || 180 < maxLon || minLat < -90 || 90 < maxLat) &&
    !(maxLon ≤ minLon || maxLat ≤ minLat)

/-- The diff computation inside `trySend`: current map, upserts and deletes.
When `last` is empty the upsert list is the full item array (initial
snapshot).  The Go iteration over the `cur` map has randomised order; the
model iterates the association list in its build order. -/
def buildDiff (snapshot : List Point) (s : Sess) :
    List (Str × Item) × List Item × List Str :=
  let (cur, arr) := makeCur snapshot
  if s.last = [] then (cur, arr, [])
  else
    let up :=
      cur.foldl
        (fun acc kv =>
          match getA s.last kv.1 with
          | none => acc ++ [kv.2]
          | some ov => if itemChanged ov kv.2 then acc ++ [kv.2] else acc)
        []
    let dl :=
      s.last.foldl
        (fun acc kv =>
          match getA cur kv.1 with
          | none => acc ++ [kv.1]
          | some _ => acc)
        []
    (cur, up, dl)

/-- `trySend` (`ws.go` lines 733–845): a no-op while `inflight`, `bufferHigh`
or not `pending`; an empty diff clears `pending` and refreshes `last` without
consuming a sequence number; otherwise `seq` is incremented and the diff
emitted with `inflight` set.  Note that the snapshot is `CurrentAll()`
unfiltered — the session's bbox fields are not consulted. -/
def trySend (snapshot : List Point) (s : Sess) : Sess × Option DiffMsg :=
  if s.inflight || s.bufferHigh || !s.pending then (s, none)
  else
    let (cur, up, dl) := buildDiff snapshot s
    if up = [] ∧ dl = [] then ({ s with pending := false, last := cur }, none)
    else
      ({ s with seq := s.seq + 1, inflight := true, last := cur, pending := false },
        some ⟨s.seq + 1, up, dl⟩)

/-- One iteration of the session's select loop (plus the reader-side
handling that filters which ACK/VIEWPORT messages reach it).  `snapshot` is
the `CurrentAll()` view that a send attempt during this event would read. -/
def stepEv (snapshot : List Point) (s : Sess) (e : Ev) : Sess × List OutMsg :=
  match e with
  | .ack aseq buf =>
    -- the reader goroutine forwards an ack only when its seq is > 0
    if aseq ≤ 0 then (s, [])
    else if aseq = s.seq then
      let s1 := { s with inflight := false, bufferHigh := 1000000 < buf }
      if s1.bufferHigh then (s1, [])
      else
        let (s2, m) := trySend snapshot s1
        (s2, (m.map OutMsg.diff).toList)
    else (s, [])
  | .update =>
    let s1 := { s with pending := true }
    let (s2, m) := trySend snapshot s1
    (s2, (m.map OutMsg.diff).toList)
  | .viewport a b c d =>
    if bboxValid a b c d then ({ s with hasBBox := true, bbox := (a, b, c, d) }, [])
    else (s, [])
  | .tick longIdle => (s, [if longIdle then .hb else .ping])

/-- The session transcript: received events interleaved with sent messages. -/
inductive TraceItem
  | recv (e : Ev)
  | sent (m : OutMsg)
deriving DecidableEq, Repr

/-- Run the select loop over a list of events, each paired with the snapshot
a send attempt during it would read; accumulate the transcript. -/
def runSteps : Sess → List TraceItem → List (Ev × List Point) → Sess × List TraceItem
  | s, tr, [] => (s, tr)
  | s, tr, (e, snap) :: rest =>
    let (s', out) := stepEv snap s e
    runSteps s' (tr ++ [.recv e] ++ out.map TraceItem.sent) rest

/-- A whole session: the kick-off `trySend` on the initial snapshot,
followed by the select loop. -/
def runSession (initSnap : List Point) (evs : List (Ev × List Point)) :
    Sess × List TraceItem :=
  let (s1, m) := trySend initSnap sessStart
  runSteps s1 ((m.map OutMsg.diff).toList.map TraceItem.sent) evs

/-- `backend.BroadcastShutdown`'s wire message, `{"type":"server_shutdown","ts":unix}`. -/
structure ShutdownMsg where
  ts : Int
deriving DecidableEq, Repr

/-! ## `backend.IngestLoop` and `FetchOpenSkyData` error handling -/

/-- The observable outcome of one upstream fetch, after
`FetchOpenSkyData`'s status handling. -/
inductive FetchOut
  | ok (states : List Row)
  | rateLimited (retryAfter : Int)
  | errOther
deriving DecidableEq, Repr

/-- An upstream HTTP response (or network error) as `FetchOpenSkyData`
observes it: `retryAfterSec` is the parsed `Retry-After` header
(`parseRetryAfter` yields 0 for a missing or unparseable header), `body` the
decoded states array (`none` = JSON decode failure). -/
inductive UpstreamResp
  | netErr
  | http (status : Int) (retryAfterSec : Int) (body : Option (List Row))
deriving DecidableEq, Repr

/-- The error classification of `FetchOpenSkyData` (`backend.go` lines
221–242): 429/503 produce a `RateLimitError` whose `RetryAfter` defaults to
30 s when the header is missing or non-positive; other non-2xx statuses,
network errors and decode failures are plain errors. -/
def fetchResult : UpstreamResp → FetchOut
  | .netErr => .errOther
  | .http status ra body =>
    if status = 429 ∨ status = 503 then
      .rateLimited (if ra ≤ 0 then 30 else ra)
    else if status < 200 ∨ 300 ≤ status then .errOther
    else
      match body with
      | some st => .ok st
      | none => .errOther

/-- Observable actions of the ingest loop. -/
inductive IngestAct
  | fetch
  | upsert (states : List Row)
  | touchNow (ttlSeconds : Int)
deriving DecidableEq, Repr

/-- Items of the ingest trace: actions and the sleeps between ticks. -/
inductive ITraceItem
  | act (a : IngestAct)
  | sleepFor (seconds : Int)
deriving DecidableEq, Repr

/-- The `GetPollInterval()`-with-fallback idiom repeated in `fetchOnce`. -/
def pollOr10 (poll : Int) : Int := if poll ≤ 0 then 10 else poll

/-- The `fetchOnce` closure of `IngestLoop` (`backend.go` lines 254–300):
the actions performed for one tick and the sleep before the next one. -/
def fetchOnce (poll : Int) (res : UpstreamResp) : List IngestAct × Int :=
  match fetchResult res with
  | .rateLimited ra =>
    let mn := pollOr10 poll
    let delay := if ra < mn then mn else ra
    ([.fetch, .touchNow (delay + 5)], delay)
  | .errOther => ([.fetch, .touchNow (pollOr10 poll + 5)], pollOr10 poll)
  | .ok states => ([.fetch, .upsert states], pollOr10 poll)

/-- `backend.IngestLoop` as a trace over a finite sequence of upstream
responses: the first fetch runs immediately, and each tick is followed by
its sleep before the next fetch. -/
def runIngest (poll : Int) : List UpstreamResp → List ITraceItem
  | [] => []
  | r :: rest =>
    let (acts, d) := fetchOnce poll r
    acts.map ITraceItem.act ++ [.sleepFor d] ++ runIngest poll rest

/-! ## `app.Run`'s termination path -/

/-- The actions available to `Run`'s shutdown handling.
`broadcastShutdown` stands for a call to `backend.BroadcastShutdown` (the
function is defined in `ws.go` and sends `server_shutdown` to each
registered session). -/
inductive RunAct
  | broadcastShutdown
  | httpShutdown (graceSeconds : Int)
  | stopIngest
  | waitServerExit
  | storeClose
deriving DecidableEq, Repr

/-- The exact action sequence of the `case <-ctx.Done()` branch of `app.Run`
(`run.go` lines 128–142): drain the HTTP listener with a 10 s grace period,
close the ingester's stop channel, wait for the server goroutine, close the
store. -/
def runTerminationSeq : List RunAct :=
  [.httpShutdown 10, .stopIngest, .waitServerExit, .storeClose]

/-! ## `security.validateJWT` (source included in the repository README) -/

/-- A decoded JSON value inside the token payload (`json.Unmarshal` into
`map[string]interface{}`: numbers arrive as `float64`). -/
inductive JVal
  | jnum (q : ℚ)
  | jstr (s : Str)
  | jother
deriving DecidableEq, Repr

/-- The decoded payload object. -/
abbrev JObj := List (Str × JVal)

/-- Go `strings.Split(s, ".")`. -/
def splitOnDotAux : Str → Str → List Str
  | [], acc => [acc.reverse]
  | c :: rest, acc =>
    if c = '.' then acc.reverse :: splitOnDotAux rest []
    else splitOnDotAux rest (c :: acc)

def splitOnDot (s : Str) : List Str := splitOnDotAux s []

/-- `strconv.ParseInt(s, 10, 64)`: optional sign, at least one digit, all
digits, result within int64 range; `none` on any violation. -/
def parseInt64 (s : Str) : Option Int :=
  let (neg, ds) : Bool × Str :=
    match s with
    | '-' :: rest => (true, rest)
    | '+' :: rest => (false, rest)
    | _ => (false, s)
  if ds = [] then none
  else if ds.all (fun c => 48 ≤ c.toNat && c.toNat ≤ 57) then
    let n : Int := ds.foldl (fun a c => a * 10 + (c.toNat - 48 : Int)) 0
    let v := if neg then -n else n
    if v < i64min ∨ i64max < v then none else some v
  else none

/-- The `exp` extraction switch of `validateJWT`: `none` when the payload has
no `"exp"` member (no check performed at all); otherwise the value the code
assigns to its `exp` variable (left at 0 for unparseable kinds). -/
def expFromPayload (payload : JObj) : Option Int :=
  match getA payload (str "exp") with
  | none => none
  | some v =>
    some
      (match v with
       | .jnum q => f64toI64 (.fin q)
       | .jstr s =>
         match parseInt64 s with
         | some n => n
         | none => 0
       | .jother => 0)

/-- `security.validateJWT` (README lines 281–314).  The cryptographic and
serialisation primitives are explicit function parameters: `b64` is
`base64urlDecode` (`none` = decode error), `hmacSha256` the
`hmac.New(sha256.New, jwtSecret)` MAC over the given bytes, and `jsonParse`
`json.Unmarshal` of the payload bytes into an object (`none` = error). -/
def validateJWT (b64 : Str → Option (List Nat)) (hmacSha256 : Str → List Nat)
    (jsonParse : List Nat → Option JObj) (nowT : Int) (tok : Str) : Bool :=
  match splitOnDot tok with
  | [h, p, sg] =>
    if h = [] || p = [] then false
    else
      let expected := hmacSha256 (h ++ ['.'] ++ p)
      match b64 sg with
      | none => false
      | some sigBytes =>
        if sigBytes ≠ expected then false
        else
          match b64 p with
          | none => false
          | some payloadBytes =>
            match jsonParse payloadBytes with
            | none => false
            | some payload =>
              match expFromPayload payload with
              | none => true
              | some e => if 0 < e ∧ e < nowT then false else true
  | _ => false

/-- `security.ValidateJWTFromRequest`: false without a non-empty `mfr_jwt`
cookie, otherwise `validateJWT` on its value. -/
def ValidateJWTFromRequest (b64 : Str → Option (List Nat))
    (hmacSha256 : Str → List Nat) (jsonParse : List Nat → Option JObj)
    (nowT : Int) (cookie : Option Str) : Bool :=
  match cookie with
  | none => false
  | some v => if v = [] then false else validateJWT b64 hmacSha256 jsonParse nowT v

/-! ## Specification-side definitions

The following definitions are written from the wording of the claims (and
their amendments); the theorems below compare them with the model realised
from the source. -/

/-- The sequence numbers of the diff messages of a transcript. -/
def diffSeqs (tr : List TraceItem) : List Int :=
  tr.filterMap (fun t => match t with | .sent (.diff d) => some d.seq | _ => none)

/-- `1, 2, …, n`. -/
def seqsFrom1 (n : Nat) : List Int := (List.range n).map (fun k => (k : Int) + 1)

/-- The ack-gating monitor of the claim "after a diff with sequence number N
has been sent, no further diff is sent until an ack with seq = N and
buffered ≤ 1 000 000 is received": walks the transcript carrying the
outstanding diff's seq.  A second diff while one is outstanding is a
violation; a matching ack with low buffer clears the obligation; every other
item (hb, ping, other events, non-matching or high-buffer acks) leaves it. -/
def ackMonitor : Option Int → List TraceItem → Bool
  | _, [] => true
  | none, .sent (.diff d) :: rest => ackMonitor (some d.seq) rest
  | some _, .sent (.diff _) :: _ => false
  | some n, .recv (.ack a b) :: rest =>
    if a = n ∧ b ≤ 1000000 then ackMonitor none rest else ackMonitor (some n) rest
  | st, _ :: rest => ackMonitor st rest

/-- The scanned sample window per claim C5's wording: read descending
samples, stopping after reading one older than the cutoff or after the
tenth; the stopping sample is included.  `k` counts samples already read. -/
def scannedWindow (cutoff : Int) : Nat → List Point → List Point
  | _, [] => []
  | k, p :: rest =>
    if p.ts < cutoff ∨ 10 ≤ k + 1 then [p] else p :: scannedWindow cutoff (k + 1) rest

/-- Claim C5 (as amended): `newest`/`oldest` are the first and last scanned
samples; zero samples give false; otherwise false when the span is below the
integer half-window, else the speed/distance/altitude test — which, for a
single scanned sample, compares the sample with itself. -/
def landedSpec (hav : Point → Point → ℚ) (nowT : Int) (window : Int)
    (desc : List Point) : Bool :=
  let w := if window ≤ 0 then 900 else window
  let scanned := scannedWindow (nowT - w) 0 desc
  match scanned.head?, scanned.getLast? with
  | some nw, some od =>
    if nw.ts - od.ts < w / 2 then false
    else
      decide (nw.speed ≤ mkRat 3 2) && decide (hav od nw < 500) &&
        decide (|qSub nw.alt od.alt| < 10)
  | _, _ => false

/-- One ingest tick per claim C6's wording (as amended): on a 429/503
response, back off by `max(retryAfter, pollInterval)` — where a missing or
non-positive `Retry-After` is replaced by 30 s first — touching the now-view
for `backoff + 5 s`; on any other failure touch for `pollInterval + 5 s` and
sleep `pollInterval`; on success upsert and sleep `pollInterval`. -/
def ingestTickClaim (poll : Int) : UpstreamResp → List ITraceItem
  | .netErr => [.act .fetch, .act (.touchNow (poll + 5)), .sleepFor poll]
  | .http status raHdr body =>
    if status = 429 ∨ status = 503 then
      let backoff := max (if raHdr ≤ 0 then 30 else raHdr) poll
      [.act .fetch, .act (.touchNow (backoff + 5)), .sleepFor backoff]
    else if 200 ≤ status ∧ status < 300 then
      match body with
      | some sts => [.act .fetch, .act (.upsert sts), .sleepFor poll]
      | none => [.act .fetch, .act (.touchNow (poll + 5)), .sleepFor poll]
    else [.act .fetch, .act (.touchNow (poll + 5)), .sleepFor poll]

/-- The whole ingest trace per claim C6 (as amended); the first tick runs
immediately (no leading sleep). -/
def ingestClaimTrace (poll : Int) : List UpstreamResp → List ITraceItem
  | [] => []
  | r :: rest => ingestTickClaim poll r ++ ingestClaimTrace poll rest

/-- Claim C10's reading of the `exp` member: the value when it parses to a
number (JSON number, or numeric string), `none` otherwise. -/
def claimExpVal (payload : JObj) : Option Int :=
  match getA payload (str "exp") with
  | some (.jnum q) => some (f64toI64 (.fin q))
  | some (.jstr s) => parseInt64 s
  | _ => none

/-- Claim C10 as a predicate: a three-part token with non-empty
header/payload whose decoded signature equals the HS256 MAC of
`header.payload` is accepted, with expiry enforced only when `exp` parses to
a positive number strictly earlier than the current time. -/
def validateJWTClaim (b64 : Str → Option (List Nat)) (hmacSha256 : Str → List Nat)
    (jsonParse : List Nat → Option JObj) (nowT : Int) (tok : Str) : Bool :=
  match splitOnDot tok with
  | [h, p, sg] =>
    !h.isEmpty && !p.isEmpty &&
      (match b64 sg with
       | some sb => decide (sb = hmacSha256 (h ++ ['.'] ++ p))
       | none => false) &&
      (match (b64 p).bind jsonParse with
       | none => false
       | some payload =>
         match claimExpVal payload with
         | some e => !(decide (0 < e) && decide (e < nowT))
         | none => true)
  | _ => false

/-- Stores reachable from a freshly opened store by `UpsertStates` batches
alone (no `RebuildNow`, no TTL expiry). -/
inductive UpsertReachable : Store → Prop
  | base (retention : Int) : UpsertReachable (emptyStore retention)
  | step {s s' : Store} (nowT : Int) (batch : List Row) :
      UpsertReachable s → UpsertStates nowT batch s = some s' → UpsertReachable s'

/-! ## Concrete instances used by the counterexamples and witnesses -/

/-- A 7-field row with a valid icao and parseable lon/lat: the Go code
reaches `st[13]` on it and panics. -/
def c4ShortRow : Row :=
  [.vstr (str "abc123"), .vstr (str "AAL100"), .vnull, .vnull, .vnull,
   .vnum (.fin (mkRat (-245) 2)), .vnum (.fin (mkRat 377 10))]

/-- The end-to-end scenario-1 row of the spec, padded to 14 fields. -/
def c4GoodRow : Row :=
  [.vstr (str "ABC123"), .vstr (str "AAL100"), .vnull, .vnull,
   .vnum (.fin 1000000000), .vnum (.fin (mkRat (-245) 2)), .vnum (.fin (mkRat 377 10)),
   .vnull, .vbool false, .vnum (.fin 230), .vnum (.fin 90), .vnull, .vnull,
   .vnum (.fin 10000)]

/-- The normalised point the good row should produce. -/
def c4Point : Point :=
  ⟨str "abc123", str "AAL100", mkRat (-245) 2, mkRat 377 10, 10000, 90, 230, 1000000000⟩

/-- A stationary sample for the landed-heuristic counterexample. -/
def c5Point : Point := ⟨str "ab", str "", 10, 10, 0, 0, 0, 1000⟩

/-- A store holding exactly one historical sample for icao `ab`. -/
def c5Store : Store :=
  { emptyStore 604800 with pos := [(posKey (str "ab") 1000, (c5Point, 604800))] }

/-- A snapshot point outside the viewport `0,0,10,10`. -/
def c1Point : Point := ⟨str "aaaaaa", str "TEST1", 50, 50, 0, 0, 0, 100⟩

/-- The same aircraft with a newer timestamp (so the diff carries it). -/
def c1Point2 : Point := ⟨str "aaaaaa", str "TEST1", 50, 50, 0, 0, 0, 160⟩

/-- Session events: ack the initial snapshot, send a valid viewport, then an
ingest update whose snapshot still lies outside the viewport. -/
def c1Events : List (Ev × List Point) :=
  [(.ack 1 0, [c1Point]), (.viewport 0 0 10 10, [c1Point]), (.update, [c1Point2])]

/-- A sample for icao `aaa000` under callsign `AAL100`. -/
def c7Point : Point := ⟨str "aaa000", str "AAL100", 1, 1, 0, 0, 0, 100⟩

/-- A store holding only history (the `now:*` and `map:cs:*` entries have
expired), as `RebuildNow` finds after a restart. -/
def c7Store : Store :=
  { emptyStore 604800 with pos := [(posKey (str "aaa000") 100, (c7Point, 604800))] }

/-- Row: icao `aaa000` flying as `AAL100` at ts 100. -/
def c8RowA : Row :=
  [.vstr (str "aaa000"), .vstr (str "AAL100"), .vnull, .vnull,
   .vnum (.fin 100), .vnum (.fin 1), .vnum (.fin 1), .vnull, .vbool false,
   .vnull, .vnull, .vnull, .vnull, .vnull]

/-- Row: icao `bbb000` flying as `AA100` (the IATA form) at ts 200. -/
def c8RowB : Row :=
  [.vstr (str "bbb000"), .vstr (str "AA100"), .vnull, .vnull,
   .vnum (.fin 200), .vnum (.fin 2), .vnum (.fin 2), .vnull, .vbool false,
   .vnull, .vnull, .vnull, .vnull, .vnull]

/-- Upsert both rows, then restart (`RebuildNow`). -/
def c8Store : Option Store :=
  ((UpsertStates 100 [c8RowA] (emptyStore 604800)).bind
      (UpsertStates 200 [c8RowB])).map RebuildNow

/-- The normalised points of the two rows. -/
def c8PointA : Point := ⟨str "aaa000", str "AAL100", 1, 1, 0, 0, 0, 100⟩
def c8PointB : Point := ⟨str "bbb000", str "AA100", 2, 2, 0, 0, 0, 200⟩

/-- The store the good row must produce: its `pos:abc123:1000000000` entry
with the retention TTL, `now` entry with the 60 s TTL, and the primary and
alternate callsign mappings with the retention TTL. -/
def c4ResultStore : Store :=
  ⟨604800, 60,
   [(posKey (str "abc123") 1000000000, (c4Point, 604800))],
   [(str "abc123", (c4Point, 60))],
   [(str "AAL100", (str "abc123", 604800)), (str "AA100", (str "abc123", 604800))]⟩

/-! ## The ack-gating monitor as a step function, and the session invariant -/

/-- Diff sequence numbers among a step's outputs. -/
def diffsOf (out : List OutMsg) : List Int :=
  out.filterMap (fun m => match m with | .diff d => some d.seq | _ => none)

/-- One transition of the ack-gating monitor; `none` is a violation. -/
def ackStep : Option Int → TraceItem → Option (Option Int)
  | none, .sent (.diff d) => some (some d.seq)
  | some _, .sent (.diff _) => none
  | some n, .recv (.ack a b) =>
    some (if a = n ∧ b ≤ 1000000 then none else some n)
  | st, _ => some st

/-- Threading the monitor through a transcript. -/
def ackRun : Option Int → List TraceItem → Option (Option Int)
  | st, [] => some st
  | st, x :: rest =>
    match ackStep st x with
    | none => none
    | some st' => ackRun st' rest

/-- The simulation invariant tying the monitor state to the session state:
an outstanding monitor obligation is exactly an un-acked (or buffer-blocked)
diff whose seq is the session's current one. -/
def SInv (m : Option Int) (s : Sess) : Prop :=
  0 ≤ s.seq ∧
  (∀ n, m = some n → (s.inflight || s.bufferHigh) = true ∧ n = s.seq) ∧
  ((s.inflight || s.bufferHigh) = true → 1 ≤ s.seq)

/-! ## Helper definitions for the RebuildNow and callsign-mapping analyses -/

/-- The last entry of `l` whose key parses (`pos:{icao}:{ts}`) to `icao` —
the entry whose value survives in `RebuildNow`'s `latest` map. -/
def lastHit (icao : Str) : List (Str × (Point × Int)) → Option (Str × (Point × Int))
  | [] => none
  | e :: rest =>
    match lastHit icao rest with
    | some f => some f
    | none =>
      match parsePosKey e.1 with
      | some i => if i = icao then some e else none
      | none => none

/-- The body of `RebuildNow`'s write-back loop over the `latest` map (one
`now:{icao}` write plus, for a non-empty callsign, the primary `map:cs:*`
write). -/
def rebStep (s : Store) (st : Store) (e : Str × Point) : Store :=
  let st1 := { st with now := setA st.now e.1 (e.2, s.nowTTL) }
  if e.2.callsign = [] then st1
  else
    { st1 with
      mapcs := setA st1.mapcs (normalizeCallsign e.2.callsign) (e.1, s.retention) }

/-- Well-formed position history: every `pos:*` entry's key is the
`pos:{icao}:{ts:010d}` key of its own sample (as `UpsertStates` writes them),
with an in-range timestamp and a colon-free, non-empty icao. -/
def posWF (s : Store) : Prop :=
  ∀ e ∈ s.pos, e.1 = posKey e.2.1.icao24 e.2.1.ts ∧ 0 ≤ e.2.1.ts ∧ e.2.1.ts < 10 ^ 10 ∧
    e.2.1.icao24 ≠ [] ∧ ':' ∉ e.2.1.icao24

/-- Claim C7's amended property: `RebuildNow` (a) writes `now:{icao}`, with
TTL `nowTTL`, equal to the surviving `pos:*` sample of greatest ts for every
icao with surviving history, (b) leaves `now:{icao}` alone for every other
icao, and (c) writes `map:cs:*` entries only for the primary (normalized)
callsign of a surviving sample, with TTL `retention` — never for the
alternate airline-code form. -/
def rebuildSpec (s : Store) : Prop :=
  (∀ icao : Str, (∃ e ∈ s.pos, e.2.1.icao24 = icao) →
    ∃ p : Point, getA (RebuildNow s).now icao = some (p, s.nowTTL) ∧
      p.icao24 = icao ∧ (∃ e ∈ s.pos, e.2.1 = p) ∧
      ∀ e ∈ s.pos, e.2.1.icao24 = icao → e.2.1.ts ≤ p.ts) ∧
  (∀ icao : Str, (∀ e ∈ s.pos, ¬(e.2.1.icao24 = icao)) →
    getA (RebuildNow s).now icao = getA s.now icao) ∧
  (∀ k v, getA (RebuildNow s).mapcs k = some v →
    getA s.mapcs k = some v ∨
      ∃ e ∈ s.pos, e.2.1.callsign ≠ [] ∧ k = normalizeCallsign e.2.1.callsign ∧
        v = (e.2.1.icao24, s.retention))

/-- The callsign-mapping invariant `UpsertStates` maintains: every key is a
non-empty normalized callsign, and whenever its alternate form converts back
to it, the alternate mapping resolves to the same value. -/
def mwf (m : List (Str × (Str × Int))) : Prop :=
  ∀ k v, getA m k = some v →
    k ≠ [] ∧ normalizeCallsign k = k ∧
    (¬(convertCallsignAlternate k = []) →
      convertCallsignAlternate (convertCallsignAlternate k) = k →
      getA m (convertCallsignAlternate k) = some v)

/-- Row: icao `aaa000` flying as `JBU100` (JetBlue ICAO form) at ts 100. -/
def c8RowJ1 : Row :=
  [.vstr (str "aaa000"), .vstr (str "JBU100"), .vnull, .vnull,
   .vnum (.fin 100), .vnum (.fin 1), .vnum (.fin 1), .vnull, .vbool false,
   .vnull, .vnull, .vnull, .vnull, .vnull]

/-- Row: icao `bbb000` flying as `B6100` (the digit-bearing IATA form, whose
alternate conversion yields nothing) at ts 200. -/
def c8RowJ2 : Row :=
  [.vstr (str "bbb000"), .vstr (str "B6100"), .vnull, .vnull,
   .vnum (.fin 200), .vnum (.fin 2), .vnum (.fin 2), .vnull, .vbool false,
   .vnull, .vnull, .vnull, .vnull, .vnull]

/-- Upsert the JBU row, then the B6 row (no RebuildNow). -/
def c8JbuStore : Option Store :=
  (UpsertStates 100 [c8RowJ1] (emptyStore 604800)).bind (UpsertStates 200 [c8RowJ2])

/-- The store after upserting the single AAL100 row into an empty store. -/
def c8UpStore : Store :=
  ⟨604800, 60,
   [(posKey (str "aaa000") 100, (c8PointA, 604800))],
   [(str "aaa000", (c8PointA, 60))],
   [(str "AAL100", (str "aaa000", 604800)), (str "AA100", (str "aaa000", 604800))]⟩

/-! # Theorems -/

section Lemmas

/-- `qSub` is subtraction (the computable spelling is sound). -/
theorem qSub_eq_sub (a b : ℚ) : qSub a b = a - b := by
  unfold qSub
  rw [Rat.mkRat_eq_div]
  have ha : ((a.den : ℚ)) ≠ 0 := by positivity
  have hb : ((b.den : ℚ)) ≠ 0 := by positivity
  have h1 : (a.num : ℚ) = a * (a.den : ℚ) :=
    (div_mul_cancel₀ _ ha).symm.trans (by rw [Rat.num_div_den])
  have h2 : (b.num : ℚ) = b * (b.den : ℚ) :=
    (div_mul_cancel₀ _ hb).symm.trans (by rw [Rat.num_div_den])
  push_cast
  rw [div_eq_iff (mul_ne_zero ha hb), h1, h2]
  ring

/-- The scan fold of `IsLandedWithin`, once `newest` is fixed, yields the
last element of the claim's scanned window. -/
theorem landedScan_run (cutoff : Int) :
    ∀ (l : List Point) (count : Nat) (p od0 : Point),
      landedScan cutoff l count (some p) (some od0) =
        (some p, some ((scannedWindow cutoff count l).getLastD od0)) := by
  intro l
  induction l with
  | nil => intro count p od0; rfl
  | cons q rest ih =>
    intro count p od0
    by_cases hstop : q.ts < cutoff ∨ 10 ≤ count + 1
    · simp only [landedScan, scannedWindow, hstop, if_pos, List.getLastD_cons,
        List.getLastD_nil]
    · simp only [landedScan, scannedWindow, hstop, if_neg, not_false_iff,
        List.getLastD_cons]
      exact ih (count + 1) p q

/-- The scan fold of `IsLandedWithin` computes the head and last element of
the claim's scanned window. -/
theorem landedScan_eq_window (cutoff : Int) (l : List Point) (count : Nat) :
    landedScan cutoff l count none none =
      ((scannedWindow cutoff count l).head?, (scannedWindow cutoff count l).getLast?) := by
  cases l with
  | nil => rfl
  | cons q rest =>
    by_cases hstop : q.ts < cutoff ∨ 10 ≤ count + 1
    · simp only [landedScan, scannedWindow, hstop, if_pos]
      rfl
    · simp only [landedScan, scannedWindow, hstop, if_neg, not_false_iff]
      rw [landedScan_run]
      simp [List.getLast?_cons]

end Lemmas

section SessionLemmas

theorem trySend_total (snap : List Point) (s : Sess) :
    ((trySend snap s).1.seq = s.seq ∧ (trySend snap s).1.inflight = s.inflight ∧
       (trySend snap s).1.bufferHigh = s.bufferHigh ∧ (trySend snap s).2 = none) ∨
    (s.inflight = false ∧ s.bufferHigh = false ∧
       (trySend snap s).1.seq = s.seq + 1 ∧ (trySend snap s).1.inflight = true ∧
       (trySend snap s).1.bufferHigh = s.bufferHigh ∧
       ∃ d, (trySend snap s).2 = some d ∧ d.seq = s.seq + 1) := by
  unfold trySend
  by_cases hg : (s.inflight || s.bufferHigh || !s.pending) = true
  · left; simp [hg]
  · have hg' : (s.inflight = false ∧ s.bufferHigh = false) ∧ s.pending = true := by
      simpa using hg
    rcases hbd : buildDiff snap s with ⟨cur, up, dl⟩
    simp only [hg, if_false, hbd]
    by_cases hud : up = [] ∧ dl = []
    · left; simp [hud]
    · right
      refine ⟨hg'.1.1, hg'.1.2, ?_⟩
      simp [hud]

theorem stepEv_seq (snap : List Point) (s : Sess) (e : Ev) :
    ((stepEv snap s e).1.seq = s.seq ∧ diffsOf (stepEv snap s e).2 = []) ∨
    ((stepEv snap s e).1.seq = s.seq + 1 ∧ diffsOf (stepEv snap s e).2 = [s.seq + 1]) := by
  cases e with
  | ack a b =>
    unfold stepEv
    dsimp only
    by_cases ha0 : a ≤ 0
    · left; simp [ha0, diffsOf]
    by_cases haseq : a = s.seq
    · subst haseq
      simp only [ha0, if_false, if_pos]
      by_cases hbh : (1000000 : Int) < b
      · left; simp [hbh, diffsOf]
      · have hdec : (decide ((1000000 : Int) < b)) = false := by simp [hbh]
        rcases trySend_total snap { s with inflight := false, bufferHigh := 1000000 < b } with
          ⟨hseq, _, _, hnone⟩ | ⟨_, _, hseq, _, _, d, hsome, hdseq⟩
        · left
          simp only [hdec] at hseq hnone
          simp [hbh, hnone, hseq, diffsOf]
        · right
          simp only [hdec] at hseq hsome
          simp [hbh, hsome, hseq, hdseq, diffsOf]
    · left; simp [ha0, haseq, diffsOf]
  | update =>
    unfold stepEv
    dsimp only
    rcases trySend_total snap { s with pending := true } with
      ⟨hseq, _, _, hnone⟩ | ⟨_, _, hseq, _, _, d, hsome, hdseq⟩
    · left; simp [hnone, hseq, diffsOf]
    · right; simp [hsome, hseq, hdseq, diffsOf]
  | viewport a b c d =>
    left
    unfold stepEv
    dsimp only
    by_cases hv : bboxValid a b c d = true <;> simp [hv, diffsOf]
  | tick long =>
    left
    unfold stepEv
    cases long <;> simp [diffsOf]

theorem seqsFrom1_snoc (n : Nat) : seqsFrom1 (n + 1) = seqsFrom1 n ++ [(n : Int) + 1] := by
  simp [seqsFrom1, List.range_succ]

theorem seqsFrom1_length (n : Nat) : (seqsFrom1 n).length = n := by
  induction n with
  | zero => rfl
  | succ k ih =>
    rw [seqsFrom1_snoc, List.length_append, ih]
    rfl

theorem diffSeqs_append (a b : List TraceItem) :
    diffSeqs (a ++ b) = diffSeqs a ++ diffSeqs b := by
  simp [diffSeqs]

theorem diffSeqs_sent (out : List OutMsg) :
    diffSeqs (out.map TraceItem.sent) = diffsOf out := by
  rw [diffSeqs, diffsOf, List.filterMap_map]
  congr 1
  funext m
  cases m <;> rfl

theorem runSteps_seq_inv (evs : List (Ev × List Point)) :
    ∀ (s : Sess) (tr : List TraceItem), 0 ≤ s.seq →
      diffSeqs tr = seqsFrom1 s.seq.toNat →
      0 ≤ (runSteps s tr evs).1.seq ∧
      diffSeqs (runSteps s tr evs).2 = seqsFrom1 (runSteps s tr evs).1.seq.toNat := by
  induction evs with
  | nil => intro s tr h0 hds; exact ⟨h0, hds⟩
  | cons p rest ih =>
    intro s tr h0 hds
    rcases p with ⟨e, snap⟩
    rcases hse : stepEv snap s e with ⟨s', out⟩
    have hrun : runSteps s tr ((e, snap) :: rest) =
        runSteps s' (tr ++ [.recv e] ++ out.map .sent) rest := by
      simp [runSteps, hse]
    rw [hrun]
    have hstep := stepEv_seq snap s e
    rw [hse] at hstep
    have hre : diffSeqs [TraceItem.recv e] = [] := rfl
    rcases hstep with ⟨hseq, hout⟩ | ⟨hseq, hout⟩
    · apply ih
      · rw [hseq]; exact h0
      · rw [diffSeqs_append, diffSeqs_append, diffSeqs_sent, hout, hseq, hre,
          List.append_nil, List.append_nil, hds]
    · apply ih
      · rw [hseq]; omega
      · rw [diffSeqs_append, diffSeqs_append, diffSeqs_sent, hout, hseq, hre,
          List.append_nil, hds]
        have h1 : (s.seq + 1).toNat = s.seq.toNat + 1 := by omega
        have h2 : ((s.seq.toNat : Int)) = s.seq := by omega
        rw [h1, seqsFrom1_snoc, h2]

theorem ackMonitor_eq_run : ∀ (tr : List TraceItem) (st : Option Int),
    ackMonitor st tr = (ackRun st tr).isSome := by
  intro tr
  induction tr with
  | nil => intro st; cases st <;> rfl
  | cons x rest ih =>
    intro st
    cases x with
    | sent m =>
      cases m with
      | diff d =>
        cases st with
        | none => simpa [ackMonitor, ackRun, ackStep] using ih (some d.seq)
        | some n => simp [ackMonitor, ackRun, ackStep]
      | hb =>
        cases st <;> simpa [ackMonitor, ackRun, ackStep] using ih _
      | ping =>
        cases st <;> simpa [ackMonitor, ackRun, ackStep] using ih _
    | recv e =>
      cases st with
      | none =>
        cases e <;> simpa [ackMonitor, ackRun, ackStep] using ih none
      | some n =>
        cases e with
        | ack a b =>
          by_cases h : a = n ∧ b ≤ 1000000 <;>
            simpa [ackMonitor, ackRun, ackStep, h] using ih _
        | update => simpa [ackMonitor, ackRun, ackStep] using ih _
        | viewport p q r w => simpa [ackMonitor, ackRun, ackStep] using ih _
        | tick lg => simpa [ackMonitor, ackRun, ackStep] using ih _

theorem ackRun_append (xs ys : List TraceItem) : ∀ st,
    ackRun st (xs ++ ys) =
      match ackRun st xs with
      | none => none
      | some st' => ackRun st' ys := by
  induction xs with
  | nil => intro st; rfl
  | cons x rest ih =>
    intro st
    show (match ackStep st x with
          | none => none
          | some st' => ackRun st' (rest ++ ys)) = _
    cases hstep : ackStep st x with
    | none => simp [ackRun, hstep]
    | some st' => simp [ackRun, hstep, ih st']

theorem trySend_mon (snap : List Point) (s : Sess) (h0 : 0 ≤ s.seq)
    (hfl : s.inflight = false) (hbh : s.bufferHigh = false) :
    ∃ m', ackRun none
        (((Option.map OutMsg.diff (trySend snap s).2).toList).map TraceItem.sent) = some m' ∧
      SInv m' (trySend snap s).1 := by
  rcases trySend_total snap s with
    ⟨hseq, hfl2, hbh2, hnone⟩ | ⟨_, _, hseq, hfl2, hbh2, d, hsome, hdseq⟩
  · refine ⟨none, ?_, ?_⟩
    · rw [hnone]; rfl
    · refine ⟨by omega, by simp, ?_⟩
      rw [hfl2, hbh2, hfl, hbh]
      simp
  · refine ⟨some d.seq, ?_, ?_⟩
    · rw [hsome]; rfl
    · refine ⟨by omega, ?_, ?_⟩
      · intro n hn
        rw [hfl2]
        injection hn with hn'
        constructor
        · simp
        · rw [← hn', hdseq, hseq]
      · intro _
        rw [hseq]; omega

theorem stepEv_mon (snap : List Point) (s : Sess) (e : Ev) (m : Option Int)
    (hInv : SInv m s) :
    ∃ m', ackRun m (TraceItem.recv e :: (stepEv snap s e).2.map TraceItem.sent) = some m' ∧
      SInv m' (stepEv snap s e).1 := by
  obtain ⟨h0, hm, hfl⟩ := hInv
  cases e with
  | ack a b =>
    unfold stepEv
    dsimp only
    by_cases ha0 : a ≤ 0
    · -- dropped by the reader: no state change, no output
      simp only [ha0, if_true]
      refine ⟨m, ?_, h0, hm, hfl⟩
      cases m with
      | none => rfl
      | some n =>
        obtain ⟨hfl', hn⟩ := hm n rfl
        have h1 : 1 ≤ n := hn ▸ hfl hfl'
        have hne : ¬(a = n ∧ b ≤ 1000000) := by omega
        simp [ackRun, ackStep, hne]
    · by_cases haseq : a = s.seq
      · subst haseq
        simp only [ha0, if_false, if_pos]
        by_cases hbh : (1000000 : Int) < b
        · -- matching ack, buffer high: blocks, no output
          have hdec : (decide ((1000000 : Int) < b)) = true := by simp [hbh]
          simp only [hdec, if_true]
          cases m with
          | none =>
            refine ⟨none, rfl, ?_, ?_, ?_⟩
            · show (0 : Int) ≤ s.seq
              exact h0
            · simp
            · intro _
              show (1 : Int) ≤ s.seq
              omega
          | some n =>
            obtain ⟨hfl', hn⟩ := hm n rfl
            have hne : ¬(s.seq = n ∧ b ≤ 1000000) := fun hc => absurd hc.2 (by omega)
            refine ⟨some n, ?_, ?_, ?_, ?_⟩
            · simp [ackRun, ackStep, hne]
            · show (0 : Int) ≤ s.seq
              exact h0
            · intro k hk
              injection hk with hk'
              subst hk'
              refine ⟨rfl, ?_⟩
              show n = s.seq
              exact hn
            · intro _
              show (1 : Int) ≤ s.seq
              omega
        · -- matching ack, buffer low: unblocks, may send
          have hdec : (decide ((1000000 : Int) < b)) = false := by simp [hbh]
          simp only [hdec]
          show ∃ m', ackRun m (TraceItem.recv (Ev.ack s.seq b) ::
              ((Option.map OutMsg.diff
                (trySend snap { s with inflight := false, bufferHigh := false }).2).toList).map
                  TraceItem.sent) = some m' ∧
            SInv m' (trySend snap { s with inflight := false, bufferHigh := false }).1
          have hstep1 : ackStep m (TraceItem.recv (Ev.ack s.seq b)) = some none := by
            cases m with
            | none => rfl
            | some n =>
              obtain ⟨_, hn⟩ := hm n rfl
              have hc : s.seq = n ∧ b ≤ 1000000 := ⟨hn.symm, by omega⟩
              simp [ackStep, hc]
          obtain ⟨m', hrun, hsinv⟩ :=
            trySend_mon snap { s with inflight := false, bufferHigh := false } h0 rfl rfl
          refine ⟨m', ?_, hsinv⟩
          simp only [ackRun, hstep1]
          exact hrun
      · -- non-matching ack: ignored
        simp only [ha0, if_false, haseq]
        refine ⟨m, ?_, h0, hm, hfl⟩
        cases m with
        | none => rfl
        | some n =>
          obtain ⟨hfl', hn⟩ := hm n rfl
          have hne : ¬(a = n ∧ b ≤ 1000000) := fun hc => haseq (hc.1.trans hn)
          simp [ackRun, ackStep, hne]
  | update =>
    unfold stepEv
    dsimp only
    rcases trySend_total snap { s with pending := true } with
      ⟨hseq, hfl2, hbh2, hnone⟩ | ⟨hsfl, hsbh, hseq, hfl2, hbh2, d, hsome, hdseq⟩
    · -- no diff was sent: state flags and the monitor are unchanged
      refine ⟨m, ?_, ?_, ?_, ?_⟩
      · rw [hnone]
        cases m <;> rfl
      · rw [hseq]
        exact h0
      · intro n hn
        obtain ⟨hfl', hn'⟩ := hm n hn
        rw [hfl2, hbh2, hseq]
        exact ⟨hfl', hn'⟩
      · intro h
        rw [hfl2, hbh2] at h
        have h2 : (1 : Int) ≤ s.seq := hfl h
        rw [hseq]
        exact h2
    · -- a diff was sent: the monitor must have been clear, and records the new seq
      have hsfl' : s.inflight = false := hsfl
      have hsbh' : s.bufferHigh = false := hsbh
      have hm0 : m = none := by
        cases m with
        | none => rfl
        | some n =>
          obtain ⟨hflags, _⟩ := hm n rfl
          rw [hsfl', hsbh'] at hflags
          simp at hflags
      subst hm0
      refine ⟨some d.seq, ?_, ?_, ?_, ?_⟩
      · rw [hsome]
        rfl
      · rw [hseq]
        show (0 : Int) ≤ s.seq + 1
        omega
      · intro k hk
        injection hk with hk'
        subst hk'
        refine ⟨?_, ?_⟩
        · rw [hfl2]
          simp
        · rw [hdseq, hseq]
      · intro _
        rw [hseq]
        show (1 : Int) ≤ s.seq + 1
        omega
  | viewport p q r w =>
    unfold stepEv
    dsimp only
    by_cases hv : bboxValid p q r w = true
    · simp only [hv]
      refine ⟨m, ?_, ?_, ?_, ?_⟩
      · cases m <;> rfl
      · show (0 : Int) ≤ s.seq
        exact h0
      · intro n hn
        obtain ⟨hfl', hn'⟩ := hm n hn
        refine ⟨?_, ?_⟩
        · show (s.inflight || s.bufferHigh) = true
          exact hfl'
        · show n = s.seq
          exact hn'
      · intro h
        have h' : (s.inflight || s.bufferHigh) = true := h
        show (1 : Int) ≤ s.seq
        exact hfl h'
    · have hv' : bboxValid p q r w = false := by simpa using hv
      simp only [hv']
      refine ⟨m, ?_, h0, hm, hfl⟩
      cases m <;> rfl
  | tick lg =>
    unfold stepEv
    dsimp only
    refine ⟨m, ?_, h0, hm, hfl⟩
    cases lg <;> cases m <;> rfl

theorem runSteps_acc (evs : List (Ev × List Point)) : ∀ (s : Sess) (tr : List TraceItem),
    (runSteps s tr evs).1 = (runSteps s [] evs).1 ∧
    (runSteps s tr evs).2 = tr ++ (runSteps s [] evs).2 := by
  induction evs with
  | nil =>
    intro s tr
    exact ⟨rfl, by simp [runSteps]⟩
  | cons p rest ih =>
    intro s tr
    rcases p with ⟨e, snap⟩
    rcases hse : stepEv snap s e with ⟨s', out⟩
    have h1 : runSteps s tr ((e, snap) :: rest) =
        runSteps s' (tr ++ [.recv e] ++ out.map .sent) rest := by
      simp [runSteps, hse]
    have h2 : runSteps s [] ((e, snap) :: rest) =
        runSteps s' ([] ++ [.recv e] ++ out.map .sent) rest := by
      simp [runSteps, hse]
    rw [h1, h2]
    obtain ⟨ia, ib⟩ := ih s' (tr ++ [.recv e] ++ out.map .sent)
    obtain ⟨ic, id'⟩ := ih s' ([] ++ [.recv e] ++ out.map .sent)
    refine ⟨ia.trans ic.symm, ?_⟩
    rw [ib, id']
    simp

theorem runSteps_mon (evs : List (Ev × List Point)) : ∀ (s : Sess) (m : Option Int),
    SInv m s →
    ∃ m', ackRun m (runSteps s [] evs).2 = some m' ∧ SInv m' (runSteps s [] evs).1 := by
  induction evs with
  | nil =>
    intro s m hInv
    exact ⟨m, rfl, hInv⟩
  | cons p rest ih =>
    intro s m hInv
    rcases p with ⟨e, snap⟩
    rcases hse : stepEv snap s e with ⟨s', out⟩
    have h2 : runSteps s [] ((e, snap) :: rest) =
        runSteps s' ([] ++ [.recv e] ++ out.map .sent) rest := by
      simp [runSteps, hse]
    rw [h2]
    obtain ⟨ic, id'⟩ := runSteps_acc rest s' ([] ++ [.recv e] ++ out.map .sent)
    rw [ic, id']
    obtain ⟨m1, hrun1, hInv1⟩ := stepEv_mon snap s e m hInv
    rw [hse] at hrun1 hInv1
    obtain ⟨m', hrun2, hInv2⟩ := ih s' m1 hInv1
    refine ⟨m', ?_, hInv2⟩
    rw [ackRun_append]
    have hx : ackRun m ([] ++ [TraceItem.recv e] ++ out.map TraceItem.sent) = some m1 := hrun1
    rw [hx]
    exact hrun2

end SessionLemmas

set_option maxRecDepth 8000 in
/-- **C4** (code_bug).  Claimed: every row with at least 7 fields, a
non-empty icao and parseable non-NaN lon/lat is written (or skipped)
without aborting the batch.  In fact `UpsertStates` guards only
`len(st) < 7` yet evaluates `st[13]`, so a valid 7-field row panics with an
index-out-of-range, aborting the whole batch (first conjunct, where `none`
is the panic).  With the row padded to 14 fields the write happens exactly
as claimed: `pos:{icao}:{ts:010d}` with the retention TTL and `now:{icao}`
with `nowTTL`, holding the normalised row (lowercased icao, upper-cased
trimmed callsign, clamped lon/lat, geo altitude, track in `[0,360)`,
speed ≥ 0, ts = last_contact), plus the two callsign mappings. -/
theorem claim_C4_upsert_short_row :
    UpsertStates 1000 [c4ShortRow] (emptyStore 604800) = none ∧
    UpsertStates 1000 [c4GoodRow] (emptyStore 604800) = some c4ResultStore := by
  constructor
  · decide
  · decide

/-- **C9** (code_bug).  Claimed: on a termination signal the server
broadcasts `server_shutdown` to every live WS session before the listener
finishes draining, then stops the ingester and closes the store.  The
termination branch of `app.Run` performs the drain, ingester stop and store
close — but never calls `BroadcastShutdown`, which is defined in `ws.go` and
never invoked anywhere. -/
theorem claim_C9_no_broadcast :
    RunAct.broadcastShutdown ∉ runTerminationSeq ∧
    runTerminationSeq = [.httpShutdown 10, .stopIngest, .waitServerExit, .storeClose] := by
  decide

/-- **C5** (corrected) — counterexample.  The claim says `IsLandedWithin`
returns false when fewer than two samples exist; with exactly one stored
sample (speed 0) and a 1-second window the code returns `true`: the single
sample is both `newest` and `oldest`, the span test `0 < 1/2 = 0` does not
fire, and the heuristic compares the sample with itself.  The haversine
function is instantiated with the constant 0, which agrees with
`haversineMeters` on the only pair it is applied to (a point with itself,
where the formula yields exactly 0). -/
theorem claim_C5_counterexample :
    (posDescFor c5Store (str "ab")).length = 1 ∧
    IsLandedWithin (fun _ _ => 0) 1000 c5Store (str "ab") 1 = true := by
  decide

/-- **C5** (corrected) — the amended claim.  `IsLandedWithin` scans
`pos:{icao}:*` descending, stopping after reading a sample older than
`now − window` or after ten samples; with `newest`/`oldest` the first and
last samples scanned it returns false when *zero* samples exist or when
`newest.ts − oldest.ts < window/2` (integer division of whole seconds, with
non-positive windows replaced by 15 min), and otherwise returns true iff
`newest.speed ≤ 1.5 ∧ hav(oldest,newest) < 500 ∧ |newest.alt − oldest.alt| < 10`
— so a single scanned sample (`newest = oldest`) can still satisfy the test
when `window/2 = 0`. -/
theorem claim_C5_amended (hav : Point → Point → ℚ) (nowT : Int) (s : Store)
    (icao : Str) (window : Int) :
    IsLandedWithin hav nowT s icao window =
      landedSpec hav nowT window (posDescFor s icao) := by
  unfold IsLandedWithin landedSpec
  simp only [landedScan_eq_window]
  cases hsw : scannedWindow (nowT - if window ≤ 0 then 900 else window) 0
      (posDescFor s icao) with
  | nil => rfl
  | cons p rest => simp [List.getLast?_cons]

/-- **C6** (corrected) — counterexample.  The claim says a rate-limited
tick waits `max(Retry-After, pollInterval)`.  With `pollInterval = 10 s` and
a 429 whose `Retry-After` is missing (parsed as 0), the code first replaces
the missing value by 30 s, so it touches the now-view for 35 s and sleeps
30 s — not the claimed `max(0, 10) = 10`. -/
theorem claim_C6_counterexample :
    runIngest 10 [.http 429 0 none] =
      [.act .fetch, .act (.touchNow 35), .sleepFor 30] ∧
    max (0 : Int) 10 = 10 ∧ (30 : Int) ≠ 10 := by
  decide

/-- **C6** (corrected) — the amended claim.  With a positive poll interval,
the ingest loop's trace is exactly: fetch; on 429/503 touch the now-view for
`backoff + 5 s` and sleep `backoff = max(retryAfter, pollInterval)` where a
missing/non-positive `Retry-After` is first replaced by 30 s; on any other
failure (network error, non-2xx status, decode failure) touch for
`pollInterval + 5 s` and sleep `pollInterval`; on success upsert the batch
and sleep `pollInterval`.  The first fetch runs immediately (the trace never
starts with a sleep4). -/
theorem claim_C6_amended (poll : Int) (hpoll : 0 < poll) :
    ∀ rs : List UpstreamResp, runIngest poll rs = ingestClaimTrace poll rs := by
  have hp10 : pollOr10 poll = poll := by
    unfold pollOr10
    simp [show ¬poll ≤ 0 by omega]
  intro rs
  induction rs with
  | nil => rfl
  | cons r rest ih =>
    show (fetchOnce poll r).1.map ITraceItem.act ++ [.sleepFor (fetchOnce poll r).2] ++
        runIngest poll rest = ingestTickClaim poll r ++ ingestClaimTrace poll rest
    rw [ih]
    congr 1
    cases r with
    | netErr => simp [fetchOnce, fetchResult, ingestTickClaim, hp10]
    | http status ra body =>
      by_cases hrl : status = 429 ∨ status = 503
      · simp only [fetchOnce, fetchResult, ingestTickClaim, hrl, if_pos, hp10]
        set ra' : Int := if ra ≤ 0 then 30 else ra with hra'
        have hmax : (if ra' < poll then poll else ra') = max ra' poll := by
          rcases le_or_lt poll ra' with h | h
          · rw [if_neg (by omega), max_eq_left h]
          · rw [if_pos h, max_eq_right (le_of_lt h)]
        simp [hmax]
      · by_cases h2xx : 200 ≤ status ∧ status < 300
        · cases body with
          | some sts =>
            simp [fetchOnce, fetchResult, ingestTickClaim, hrl, h2xx, hp10,
              show ¬(status < 200 ∨ 300 ≤ status) by omega]
          | none =>
            simp [fetchOnce, fetchResult, ingestTickClaim, hrl, h2xx, hp10,
              show ¬(status < 200 ∨ 300 ≤ status) by omega]
        · simp [fetchOnce, fetchResult, ingestTickClaim, hrl, h2xx, hp10,
            show status < 200 ∨ 300 ≤ status by omega]

/-- Witness for `claim_C6_amended` at a concrete poll interval and response
sequence. -/
theorem claim_C6_amended_witness :
    runIngest 60 [.http 429 45 none, .netErr] =
      ingestClaimTrace 60 [.http 429 45 none, .netErr] :=
  claim_C6_amended 60 (by decide) [.http 429 45 none, .netErr]

/-- **C1** (corrected) — counterexample.  The session receives a valid
`viewport 0,0,10,10` message (trace position 2) after acking the initial
snapshot; the next diff (position 4, seq 2) upserts an item at lon = 50,
lat = 50 — outside the bbox — because the snapshot is not filtered. -/
theorem claim_C1_counterexample :
    (runSession [c1Point] c1Events).2.get? 2 = some (.recv (.viewport 0 0 10 10)) ∧
    bboxValid 0 0 10 10 = true ∧
    (runSession [c1Point] c1Events).2.get? 4 =
      some (.sent (.diff ⟨2, [itemOfPoint c1Point2], []⟩)) ∧
    ¬((0 : ℚ) ≤ (itemOfPoint c1Point2).lon ∧ (itemOfPoint c1Point2).lon ≤ 10) := by
  decide

/-- **C1** (corrected) — the amended claim.  A valid viewport message only
records the bbox in the session's `hasBBox`/`bbox` fields (used for
telemetry); it does not mark the session pending and sends nothing; an
invalid one is ignored entirely.  The diff computation is independent of
those fields — `trySend` produces the same message regardless of the
recorded bbox, so upsert items may lie outside it. -/
theorem claim_C1_amended :
    (∀ (snap : List Point) (s : Sess) (a b c d : ℚ),
       (bboxValid a b c d = true →
          stepEv snap s (.viewport a b c d) =
            ({ s with hasBBox := true, bbox := (a, b, c, d) }, [])) ∧
       (bboxValid a b c d = false → stepEv snap s (.viewport a b c d) = (s, []))) ∧
    (∀ (snap : List Point) (s : Sess) (hb : Bool) (bb : ℚ × ℚ × ℚ × ℚ),
       trySend snap { s with hasBBox := hb, bbox := bb } =
         ({(trySend snap s).1 with hasBBox := hb, bbox := bb}, (trySend snap s).2)) := by
  constructor
  · intro snap s a b c d
    constructor
    · intro hv; simp [stepEv, hv]
    · intro hv; simp [stepEv, hv]
  · intro snap s hb bb
    obtain ⟨l1, q1, i1, b1, p1, h1, x1⟩ := s
    unfold trySend
    dsimp only
    by_cases hc : (i1 || b1 || !p1) = true
    · simp [hc]
    · simp only [hc, if_false, Bool.not_eq_true] at *
      rcases hbd : buildDiff snap ⟨l1, q1, i1, b1, p1, h1, x1⟩ with ⟨cur, up, dl⟩
      have hbd2 : buildDiff snap ⟨l1, q1, i1, b1, p1, hb, bb.1, bb.2.1, bb.2.2.1, bb.2.2.2⟩ =
          (cur, up, dl) := by
        unfold buildDiff at hbd ⊢
        exact hbd
      have hbb : (⟨l1, q1, i1, b1, p1, hb, bb.1, bb.2.1, bb.2.2.1, bb.2.2.2⟩ : Sess) =
          { (⟨l1, q1, i1, b1, p1, h1, x1⟩ : Sess) with hasBBox := hb, bbox := bb } := rfl
      rw [hbb] at hbd2 ⊢
      simp only [hbd, hbd2]
      by_cases hud : up = [] ∧ dl = []
      · simp [hud]
      · simp [hud]

/-- Witness for `claim_C1_amended`: a concrete valid viewport update and
the bbox-independence of a concrete send. -/
theorem claim_C1_amended_witness :
    stepEv [] sessStart (.viewport 0 0 10 10) =
      ({ sessStart with hasBBox := true, bbox := (0, 0, 10, 10) }, []) ∧
    trySend [c1Point] { sessStart with hasBBox := true, bbox := (0, 0, 10, 10) } =
      ({(trySend [c1Point] sessStart).1 with hasBBox := true, bbox := (0, 0, 10, 10)},
        (trySend [c1Point] sessStart).2) :=
  ⟨(claim_C1_amended.1 [] sessStart 0 0 10 10).1 (by decide),
   claim_C1_amended.2 [c1Point] sessStart true (0, 0, 10, 10)⟩

/-- **C7** (corrected) — counterexample.  After a restart with one surviving
`pos` entry (icao `aaa000`, callsign `AAL100`), `RebuildNow` re-establishes
the primary mapping `map:cs:AAL100` with the retention TTL but does *not*
write the alternate `map:cs:AA100`, contradicting the claim that the
airline-code-converted alternate is also re-established. -/
theorem claim_C7_counterexample :
    getA (RebuildNow c7Store).mapcs (str "AAL100") = some (str "aaa000", 604800) ∧
    convertCallsignAlternate (str "AAL100") = str "AA100" ∧
    getA (RebuildNow c7Store).mapcs (str "AA100") = none := by
  decide

set_option maxRecDepth 8000 in
/-- **C8** (corrected) — counterexample.  Upsert icao `aaa000` as `AAL100`,
then icao `bbb000` as `AA100`, then restart (`RebuildNow`).  Because
`RebuildNow` rewrites only primary mappings, `map:cs:AAL100 → aaa000` while
`map:cs:AA100 → bbb000`: both mappings resolve, `AA100` is the alternate of
`AAL100`, yet `LatestByCallsign` returns two different Points. -/
theorem claim_C8_counterexample :
    c8Store.map (fun st =>
      (getA st.mapcs (str "AAL100"), getA st.mapcs (str "AA100"),
       LatestByCallsign st (str "AAL100"), LatestByCallsign st (str "AA100"))) =
      some (some (str "aaa000", 604800), some (str "bbb000", 604800),
            some c8PointA, some c8PointB) ∧
    convertCallsignAlternate (str "AAL100") = str "AA100" ∧
    c8PointA ≠ c8PointB := by
  decide

/-- The exp-handling of `validateJWT` coincides with the claim's reading:
expiry is only ever enforced from an `exp` member that parses to a number. -/
theorem expVal_match (payload : JObj) (nowT : Int) :
    (match expFromPayload payload with
     | none => true
     | some e => if 0 < e ∧ e < nowT then false else true) =
    (match claimExpVal payload with
     | some e => !(decide (0 < e) && decide (e < nowT))
     | none => true) := by
  unfold expFromPayload claimExpVal
  rcases hx : getA payload (str "exp") with _ | v
  · rfl
  · cases v with
    | jnum q =>
      by_cases h1 : 0 < f64toI64 (.fin q) <;> by_cases h2 : f64toI64 (.fin q) < nowT <;>
        simp [h1, h2]
    | jstr s =>
      rcases hp : parseInt64 s with _ | n
      · simp [hp]
      · by_cases h1 : 0 < n <;> by_cases h2 : n < nowT <;> simp [hp, h1, h2]
    | jother => simp

/-- **C10** (confirmed).  `validateJWT` accepts exactly the three-part
tokens with non-empty header and payload whose decoded signature equals the
HS256 MAC of `header.payload` and whose payload decodes to a JSON object —
with expiry enforced only when the object's `exp` member parses to a
positive number strictly earlier than the current time; in particular a
correctly signed token without `exp` (or with an unparseable or
non-positive one) is accepted at every time.  `ValidateJWTFromRequest`
(used by the WS handshake) is `validateJWT` of the cookie value, and false
without a cookie. -/
theorem claim_C10_jwt_expiry (b64 : Str → Option (List Nat)) (hm : Str → List Nat)
    (jp : List Nat → Option JObj) (nowT : Int) :
    (∀ tok, validateJWT b64 hm jp nowT tok = validateJWTClaim b64 hm jp nowT tok) ∧
    ValidateJWTFromRequest b64 hm jp nowT none = false ∧
    (∀ ck, ValidateJWTFromRequest b64 hm jp nowT (some ck) =
      validateJWT b64 hm jp nowT ck) := by
  refine ⟨fun tok => ?_, rfl, fun ck => ?_⟩
  · unfold validateJWT validateJWTClaim
    rcases hs : splitOnDot tok with _ | ⟨h1, _ | ⟨h2, _ | ⟨h3, _ | t⟩⟩⟩ <;> try rfl
    by_cases hh1 : h1 = []
    · simp [hh1]
    by_cases hh2 : h2 = []
    · simp [hh1, hh2]
    rcases hb : b64 h3 with _ | sb
    · simp [hh1, hh2, hb, List.isEmpty_iff]
    have hh1b : h1.isEmpty = false := by simp [hh1]
    have hh2b : h2.isEmpty = false := by simp [hh2]
    by_cases hsb : sb = hm (h1 ++ '.' :: h2)
    · rcases hp : b64 h2 with _ | pb
      · simp [hh1, hh2, hb, hsb, hp, hh1b, hh2b]
      rcases hj : jp pb with _ | payload
      · simp [hh1, hh2, hb, hsb, hp, hj, hh1b, hh2b]
      · simpa [hb, hsb, hp, hj, hh1b, hh2b, eq_false hh1, eq_false hh2] using
          expVal_match payload nowT
    · simp [hh1, hh2, hb, hsb, hh1b, hh2b]
  · by_cases hck : ck = []
    · subst hck; rfl
    · simp [ValidateJWTFromRequest, hck]

/-- Claim C3: (a) every session transcript — the kick-off send followed by
the select loop over any event sequence — is accepted by the ack-gating
monitor: after a diff with seq N is sent, no further diff is sent until an
ack with seq = N and buffered ≤ 1 000 000 arrives (a matching ack with
buffered > 1 000 000 leaves the gate closed); (b) an ack whose seq differs
from the session's current sequence number has no effect: the state is
unchanged and nothing is sent. -/
theorem claim_C3_ack_gating :
    (∀ (initSnap : List Point) (evs : List (Ev × List Point)),
      ackMonitor none (runSession initSnap evs).2 = true) ∧
    (∀ (snap : List Point) (s : Sess) (a b : Int), a ≠ s.seq →
      stepEv snap s (.ack a b) = (s, [])) := by
  constructor
  · intro initSnap evs
    rw [ackMonitor_eq_run]
    have hInv0 : SInv none sessStart := by
      refine ⟨by decide, ?_, ?_⟩
      · intro n hn
        exact absurd hn (by simp)
      · intro h
        exact absurd h (by decide)
    obtain ⟨m1, hrun1, hInv1⟩ := trySend_mon initSnap sessStart (by decide) rfl rfl
    obtain ⟨m', hrun2, hInv2⟩ :=
      runSteps_mon evs (trySend initSnap sessStart).1 m1 hInv1
    have hsess : runSession initSnap evs =
        runSteps (trySend initSnap sessStart).1
          (((trySend initSnap sessStart).2.map OutMsg.diff).toList.map TraceItem.sent) evs := by
      rw [runSession]
    rw [hsess]
    obtain ⟨_, hacc⟩ := runSteps_acc evs (trySend initSnap sessStart).1
      (((trySend initSnap sessStart).2.map OutMsg.diff).toList.map TraceItem.sent)
    rw [hacc, ackRun_append]
    have hx : ackRun none
        (((trySend initSnap sessStart).2.map OutMsg.diff).toList.map TraceItem.sent) =
        some m1 := hrun1
    rw [hx]
    simp [hrun2]
  · intro snap s a b hne
    unfold stepEv
    dsimp only
    by_cases ha0 : a ≤ 0
    · simp [ha0]
    · simp [ha0, hne]

theorem claim_C3_ack_gating_witness :
    ackMonitor none (runSession [] [(Ev.ack 5 0, [])]).2 = true ∧
    stepEv [] sessStart (Ev.ack 5 0) = (sessStart, []) :=
  ⟨claim_C3_ack_gating.1 [] [(Ev.ack 5 0, [])],
   claim_C3_ack_gating.2 [] sessStart 5 0 (by decide)⟩

/-- Claim C2: (a) over any session, the seqs of the diff messages sent are
exactly 1, 2, …, k (start at 1, increase by exactly 1, none skipped or
reused); (b) a send attempt whose diff has empty upsert and delete sets
sends nothing and leaves the sequence number unchanged. -/
theorem claim_C2_seq_numbering :
    (∀ (initSnap : List Point) (evs : List (Ev × List Point)),
      diffSeqs (runSession initSnap evs).2 =
        seqsFrom1 (diffSeqs (runSession initSnap evs).2).length) ∧
    (∀ (snap : List Point) (s : Sess),
      (buildDiff snap s).2.1 = [] → (buildDiff snap s).2.2 = [] →
      (trySend snap s).2 = none ∧ (trySend snap s).1.seq = s.seq) := by
  constructor
  · intro initSnap evs
    have hsess : runSession initSnap evs =
        runSteps (trySend initSnap sessStart).1
          (((trySend initSnap sessStart).2.map OutMsg.diff).toList.map TraceItem.sent) evs := by
      rw [runSession]
    have hds0 : diffSeqs
        (((trySend initSnap sessStart).2.map OutMsg.diff).toList.map TraceItem.sent) =
        seqsFrom1 (trySend initSnap sessStart).1.seq.toNat := by
      rcases trySend_total initSnap sessStart with
        ⟨hseq, _, _, hnone⟩ | ⟨_, _, hseq, _, _, d, hsome, hdseq⟩
      · rw [hnone, hseq]
        rfl
      · rw [hsome, hseq]
        show [d.seq] = seqsFrom1 (sessStart.seq + 1).toNat
        rw [hdseq]
        decide
    have h00 : (0 : Int) ≤ (trySend initSnap sessStart).1.seq := by
      rcases trySend_total initSnap sessStart with
        ⟨hseq, _, _, _⟩ | ⟨_, _, hseq, _, _, _, _, _⟩ <;> rw [hseq] <;> decide
    obtain ⟨hfin, hds⟩ := runSteps_seq_inv evs (trySend initSnap sessStart).1
      (((trySend initSnap sessStart).2.map OutMsg.diff).toList.map TraceItem.sent) h00 hds0
    rw [hsess, hds, seqsFrom1_length]
  · intro snap s hup hdl
    unfold trySend
    by_cases hg : (s.inflight || s.bufferHigh || !s.pending) = true
    · simp [hg]
    · rcases hbd : buildDiff snap s with ⟨cur, up, dl⟩
      rw [hbd] at hup hdl
      have hup' : up = [] := hup
      have hdl' : dl = [] := hdl
      subst hup' hdl'
      simp [hg, hbd]

theorem claim_C2_seq_numbering_witness :
    diffSeqs (runSession [] []).2 = seqsFrom1 (diffSeqs (runSession [] []).2).length ∧
    ((buildDiff [] sessStart).2.1 = [] ∧ (buildDiff [] sessStart).2.2 = [] ∧
      (trySend [] sessStart).2 = none ∧ (trySend [] sessStart).1.seq = sessStart.seq) :=
  ⟨claim_C2_seq_numbering.1 [] [],
   by
    refine ⟨by decide, by decide, ?_⟩
    exact claim_C2_seq_numbering.2 [] sessStart (by decide) (by decide)⟩

theorem strLt_irrefl : ∀ a : Str, strLt a a = false := by
  intro a
  induction a with
  | nil => rfl
  | cons c rest ih => simp [strLt, ih]

theorem strLt_asymm : ∀ a b : Str, strLt a b = true → strLt b a = false := by
  intro a
  induction a with
  | nil =>
    intro b h
    cases b with
    | nil => cases h
    | cons d t => rfl
  | cons c s ih =>
    intro b h
    cases b with
    | nil => cases h
    | cons d t =>
      by_cases h1 : c.toNat < d.toNat
      · have h2 : ¬d.toNat < c.toNat := by omega
        simp [strLt, h1, h2]
      · by_cases h2 : d.toNat < c.toNat
        · simp [strLt, h1, h2] at h
        · have : strLt s t = true := by simpa [strLt, h1, h2] using h
          simp [strLt, h1, h2, ih t this]

theorem strLt_connex : ∀ a b : Str, strLt a b = false → strLt b a = false → a = b := by
  intro a
  induction a with
  | nil =>
    intro b h1 h2
    cases b with
    | nil => rfl
    | cons d t => cases h1
  | cons c s ih =>
    intro b h1 h2
    cases b with
    | nil => cases h2
    | cons d t =>
      by_cases hcd : c.toNat < d.toNat
      · simp [strLt, hcd] at h1
      · by_cases hdc : d.toNat < c.toNat
        · simp [strLt, hdc, hcd] at h2
        · have hst1 : strLt s t = false := by simpa [strLt, hcd, hdc] using h1
          have hst2 : strLt t s = false := by simpa [strLt, hcd, hdc] using h2
          have hc : c = d := by
            have hval : c.toNat = d.toNat := by omega
            exact Char.eq_of_val_eq (by
              apply UInt32.toNat.inj
              exact hval)
          rw [hc, ih t hst1 hst2]

theorem strLt_trans : ∀ a b c : Str, strLt a b = true → strLt b c = true → strLt a c = true := by
  intro a
  induction a with
  | nil =>
    intro b c h1 h2
    cases b with
    | nil => cases h1
    | cons d t =>
      cases c with
      | nil => cases h2
      | cons e u => rfl
  | cons x s ih =>
    intro b c h1 h2
    cases b with
    | nil => cases h1
    | cons y t =>
      cases c with
      | nil => cases h2
      | cons z u =>
        by_cases hxy : x.toNat < y.toNat
        · by_cases hyz : y.toNat < z.toNat
          · have : x.toNat < z.toNat := by omega
            simp [strLt, this]
          · by_cases hzy : z.toNat < y.toNat
            · simp [strLt, hyz, hzy] at h2
            · have : x.toNat < z.toNat := by omega
              simp [strLt, this]
        · by_cases hyx : y.toNat < x.toNat
          · simp [strLt, hxy, hyx] at h1
          · have hst : strLt s t = true := by simpa [strLt, hxy, hyx] using h1
            by_cases hyz : y.toNat < z.toNat
            · have : x.toNat < z.toNat := by omega
              simp [strLt, this]
            · by_cases hzy : z.toNat < y.toNat
              · simp [strLt, hyz, hzy] at h2
              · have htu : strLt t u = true := by simpa [strLt, hyz, hzy] using h2
                have hxz : ¬x.toNat < z.toNat := by omega
                have hzx : ¬z.toNat < x.toNat := by omega
                simp [strLt, hxz, hzx, ih t u hst htu]

theorem strLt_false_trans {a b c : Str} (h1 : strLt b a = false) (h2 : strLt c b = false) :
    strLt c a = false := by
  by_cases hca : strLt c a = true
  · by_cases hbc : strLt b c = true
    · have : strLt b a = true := strLt_trans b c a hbc hca
      rw [this] at h1; cases h1
    · have hbc' : strLt b c = false := by simpa using hbc
      have : b = c := strLt_connex b c hbc' h2
      subst this
      rw [hca] at h1; cases h1
  · simpa using hca

theorem mem_insertByKey {α : Type} (e x : Str × α) : ∀ l : List (Str × α),
    x ∈ insertByKey e l ↔ x = e ∨ x ∈ l := by
  intro l
  induction l with
  | nil => simp [insertByKey]
  | cons f rest ih =>
    unfold insertByKey
    by_cases h : strLt e.1 f.1 = true
    · rw [if_pos h]
      simp only [List.mem_cons]
    · rw [if_neg h]
      simp only [List.mem_cons, ih]
      tauto

theorem insertByKey_pairwise {α : Type} (e : Str × α) : ∀ l : List (Str × α),
    l.Pairwise (fun a b => strLt b.1 a.1 = false) →
    (insertByKey e l).Pairwise (fun a b => strLt b.1 a.1 = false) := by
  intro l
  induction l with
  | nil => intro _; simp [insertByKey]
  | cons f rest ih =>
    intro hp
    rw [List.pairwise_cons] at hp
    obtain ⟨hf, hrest⟩ := hp
    unfold insertByKey
    by_cases h : strLt e.1 f.1 = true
    · rw [if_pos h]
      rw [List.pairwise_cons]
      refine ⟨?_, ?_⟩
      · intro x hx
        rcases List.mem_cons.mp hx with hxe | hxr
        · subst hxe
          exact strLt_asymm _ _ h
        · exact strLt_false_trans (strLt_asymm _ _ h) (hf x hxr)
      · rw [List.pairwise_cons]
        exact ⟨hf, hrest⟩
    · rw [if_neg h]
      rw [List.pairwise_cons]
      refine ⟨?_, ih hrest⟩
      intro x hx
      rcases (mem_insertByKey e x rest).mp hx with hxe | hxr
      · subst hxe
        simpa using h
      · exact hf x hxr

theorem sortByKey_pairwise {α : Type} (l : List (Str × α)) :
    (sortByKey l).Pairwise (fun a b => strLt b.1 a.1 = false) := by
  induction l with
  | nil => simp [sortByKey]
  | cons e rest ih => exact insertByKey_pairwise e _ ih

theorem mem_sortByKey {α : Type} (x : Str × α) (l : List (Str × α)) :
    x ∈ sortByKey l ↔ x ∈ l := by
  induction l with
  | nil => simp [sortByKey]
  | cons e rest ih =>
    show x ∈ insertByKey e (sortByKey rest) ↔ _
    rw [mem_insertByKey, ih]
    simp

theorem getA_setA_self {α : Type} (l : List (Str × α)) (k : Str) (v : α) :
    getA (setA l k v) k = some v := by
  induction l with
  | nil => simp [setA, getA]
  | cons e rest ih =>
    by_cases h : e.1 = k
    · simp [setA, h, getA]
    · simp [setA, h, getA, ih]

theorem getA_setA_ne {α : Type} (l : List (Str × α)) (k k' : Str) (v : α) (h : k' ≠ k) :
    getA (setA l k v) k' = getA l k' := by
  have h' : ¬(k = k') := fun hc => h hc.symm
  induction l with
  | nil => simp [setA, getA, h']
  | cons e rest ih =>
    by_cases he : e.1 = k
    · have h3 : ¬(e.1 = k') := by rw [he]; exact h'
      simp [setA, he, getA, h', h3]
    · by_cases he' : e.1 = k'
      · simp [setA, getA, he', h', h]
      · simp [setA, he, getA, he', ih]

theorem mem_setA {α : Type} (x : Str × α) (k : Str) (v : α) : ∀ l : List (Str × α),
    x ∈ setA l k v → x ∈ l ∨ x = (k, v) := by
  intro l
  induction l with
  | nil => simp [setA]
  | cons e rest ih =>
    intro hx
    by_cases h : e.1 = k
    · simp only [setA, h, if_true] at hx
      rcases List.mem_cons.mp hx with h1 | h1
      · right; exact h1
      · left; exact List.mem_cons_of_mem _ h1
    · simp only [setA, h, if_false] at hx
      rcases List.mem_cons.mp hx with h1 | h1
      · left; exact h1 ▸ List.mem_cons_self _ _
      · rcases ih h1 with h2 | h2
        · left; exact List.mem_cons_of_mem _ h2
        · right; exact h2

theorem mem_keys_setA {α : Type} (a k : Str) (v : α) : ∀ l : List (Str × α),
    a ∈ (setA l k v).map Prod.fst → a ∈ l.map Prod.fst ∨ a = k := by
  intro l ha
  rw [List.mem_map] at ha
  obtain ⟨x, hx, hxa⟩ := ha
  rcases mem_setA x k v l hx with h | h
  · left; exact List.mem_map.mpr ⟨x, h, hxa⟩
  · right; rw [← hxa, h]

theorem setA_keys_nodup {α : Type} (k : Str) (v : α) : ∀ l : List (Str × α),
    (l.map Prod.fst).Nodup → ((setA l k v).map Prod.fst).Nodup := by
  intro l
  induction l with
  | nil => intro _; simp [setA]
  | cons e rest ih =>
    intro hnd
    rw [List.map_cons, List.nodup_cons] at hnd
    obtain ⟨hne, hnd'⟩ := hnd
    by_cases h : e.1 = k
    · rw [show setA (e :: rest) k v = (k, v) :: rest from by simp [setA, h]]
      rw [List.map_cons, List.nodup_cons]
      refine ⟨?_, hnd'⟩
      rw [← h]
      exact hne
    · simp only [setA, h, if_false, List.map_cons, List.nodup_cons]
      refine ⟨?_, ih hnd'⟩
      intro hc
      rcases mem_keys_setA e.1 k v rest hc with h1 | h1
      · exact hne h1
      · exact h h1

theorem getA_eq_none_of_not_mem {α : Type} (k : Str) : ∀ l : List (Str × α),
    k ∉ l.map Prod.fst → getA l k = none := by
  intro l
  induction l with
  | nil => intro _; rfl
  | cons e rest ih =>
    intro h
    rw [List.map_cons, List.mem_cons] at h
    push_neg at h
    have h1 : ¬(e.1 = k) := fun hc => h.1 hc.symm
    simp [getA, h1, ih h.2]

theorem lastHit_none (icao : Str) : ∀ l, lastHit icao l = none →
    ∀ e ∈ l, ¬(parsePosKey e.1 = some icao) := by
  intro l
  induction l with
  | nil => intro _ e he; cases he
  | cons x rest ih =>
    intro h e he
    rw [lastHit] at h
    rcases hr : lastHit icao rest with _ | f
    · simp only [hr] at h
      rcases List.mem_cons.mp he with h1 | h1
      · subst h1
        intro hp
        simp only [hp] at h
        simp at h
      · exact ih hr e h1
    · simp only [hr] at h
      cases h

theorem lastHit_mem (icao : Str) : ∀ l f, lastHit icao l = some f →
    f ∈ l ∧ parsePosKey f.1 = some icao := by
  intro l
  induction l with
  | nil => intro f h; cases h
  | cons x rest ih =>
    intro f h
    rw [lastHit] at h
    rcases hr : lastHit icao rest with _ | g
    · simp only [hr] at h
      rcases hp : parsePosKey x.1 with _ | i
      · simp only [hp] at h
        cases h
      · simp only [hp] at h
        by_cases hi : i = icao
        · rw [if_pos hi] at h
          injection h with h'
          subst h'
          exact ⟨List.mem_cons_self _ _, by rw [hp, hi]⟩
        · rw [if_neg hi] at h; cases h
    · simp only [hr] at h
      injection h with h'
      subst h'
      obtain ⟨h1, h2⟩ := ih g hr
      exact ⟨List.mem_cons_of_mem _ h1, h2⟩

theorem lastHit_max (icao : Str) : ∀ l f,
    l.Pairwise (fun a b => strLt b.1 a.1 = false) →
    lastHit icao l = some f →
    ∀ e ∈ l, parsePosKey e.1 = some icao → strLt f.1 e.1 = false := by
  intro l
  induction l with
  | nil => intro f _ h; cases h
  | cons x rest ih =>
    intro f hpw h e he hpe
    rw [List.pairwise_cons] at hpw
    obtain ⟨hx, hrest⟩ := hpw
    rw [lastHit] at h
    rcases hr : lastHit icao rest with _ | g
    · -- no hit in the tail: f is x itself, and nothing in the tail parses
      simp only [hr] at h
      rcases hp : parsePosKey x.1 with _ | i
      · simp only [hp] at h
        cases h
      · simp only [hp] at h
        by_cases hi : i = icao
        · rw [if_pos hi] at h
          injection h with h'
          subst h'
          rcases List.mem_cons.mp he with h1 | h1
          · subst h1
            exact strLt_irrefl _
          · exact absurd hpe (lastHit_none icao rest hr e h1)
        · rw [if_neg hi] at h; cases h
    · simp only [hr] at h
      injection h with h'
      subst h'
      rcases List.mem_cons.mp he with h1 | h1
      · subst h1
        exact hx g (lastHit_mem icao rest g hr).1
      · exact ih g hrest hr e h1 hpe

theorem foldl_parse_getA (icao : Str) : ∀ (l : List (Str × (Point × Int)))
    (acc : List (Str × Point)),
    getA (l.foldl
      (fun acc e =>
        match parsePosKey e.1 with
        | none => acc
        | some icao => setA acc icao e.2.1) acc) icao =
    match lastHit icao l with
    | some f => some f.2.1
    | none => getA acc icao := by
  intro l
  induction l with
  | nil => intro acc; rfl
  | cons e rest ih =>
    intro acc
    rw [List.foldl_cons, ih]
    rcases hr : lastHit icao rest with _ | f
    · simp only [lastHit, hr]
      rcases hp : parsePosKey e.1 with _ | i
      · simp only [hp]
      · simp only [hp]
        by_cases hi : i = icao
        · subst hi
          simp [getA_setA_self]
        · simp [hi, getA_setA_ne _ _ _ _ (fun hc => hi hc.symm)]
    · simp only [lastHit, hr]

theorem getA_rebuildLatest (s : Store) (icao : Str) :
    getA (rebuildLatest s) icao =
      match lastHit icao (sortByKey s.pos) with
      | some f => some f.2.1
      | none => none := by
  rw [rebuildLatest, foldl_parse_getA]
  rfl

theorem foldl_parse_keys_nodup : ∀ (l : List (Str × (Point × Int)))
    (acc : List (Str × Point)),
    (acc.map Prod.fst).Nodup →
    ((l.foldl
      (fun acc e =>
        match parsePosKey e.1 with
        | none => acc
        | some icao => setA acc icao e.2.1) acc).map Prod.fst).Nodup := by
  intro l
  induction l with
  | nil => intro acc h; exact h
  | cons e rest ih =>
    intro acc h
    rw [List.foldl_cons]
    apply ih
    rcases hp : parsePosKey e.1 with _ | i
    · simp only [hp]
      exact h
    · simp only [hp]
      exact setA_keys_nodup _ _ _ h

theorem rebuildLatest_keys_nodup (s : Store) :
    ((rebuildLatest s).map Prod.fst).Nodup := by
  rw [rebuildLatest]
  exact foldl_parse_keys_nodup _ _ (by simp)

theorem foldl_parse_mem : ∀ (l : List (Str × (Point × Int)))
    (acc : List (Str × Point)) (x : Str × Point),
    x ∈ l.foldl
      (fun acc e =>
        match parsePosKey e.1 with
        | none => acc
        | some icao => setA acc icao e.2.1) acc →
    x ∈ acc ∨ ∃ e ∈ l, parsePosKey e.1 = some x.1 ∧ x.2 = e.2.1 := by
  intro l
  induction l with
  | nil => intro acc x h; left; exact h
  | cons e rest ih =>
    intro acc x h
    rw [List.foldl_cons] at h
    rcases ih _ x h with h1 | ⟨e', he', h2, h3⟩
    · rcases hp : parsePosKey e.1 with _ | i
      · simp only [hp] at h1
        left; exact h1
      · simp only [hp] at h1
        rcases mem_setA x i e.2.1 acc h1 with h2 | h2
        · left; exact h2
        · right
          refine ⟨e, List.mem_cons_self _ _, ?_, ?_⟩
          · rw [hp, h2]
          · rw [h2]
    · right
      exact ⟨e', List.mem_cons_of_mem _ he', h2, h3⟩

theorem mem_rebuildLatest (s : Store) (x : Str × Point) :
    x ∈ rebuildLatest s →
    ∃ e ∈ s.pos, parsePosKey e.1 = some x.1 ∧ x.2 = e.2.1 := by
  intro h
  rw [rebuildLatest] at h
  rcases foldl_parse_mem _ _ x h with h1 | ⟨e, he, h2, h3⟩
  · cases h1
  · exact ⟨e, (mem_sortByKey e s.pos).mp he, h2, h3⟩

theorem RebuildNow_eq (s : Store) :
    RebuildNow s =
      if rebuildLatest s = [] then s else (rebuildLatest s).foldl (rebStep s) s := rfl

theorem rebStep_now (s st : Store) (e : Str × Point) :
    (rebStep s st e).now = setA st.now e.1 (e.2, s.nowTTL) := by
  rw [rebStep]
  by_cases hc : e.2.callsign = [] <;> simp [hc]

theorem rebStep_mapcs (s st : Store) (e : Str × Point) :
    (rebStep s st e).mapcs =
      if e.2.callsign = [] then st.mapcs
      else setA st.mapcs (normalizeCallsign e.2.callsign) (e.1, s.retention) := by
  rw [rebStep]
  by_cases hc : e.2.callsign = [] <;> simp [hc]

theorem rebFold_now (s : Store) (icao : Str) : ∀ (l : List (Str × Point)) (st : Store),
    (l.map Prod.fst).Nodup →
    getA (l.foldl (rebStep s) st).now icao =
      match getA l icao with
      | some p => some (p, s.nowTTL)
      | none => getA st.now icao := by
  intro l
  induction l with
  | nil => intro st _; rfl
  | cons e rest ih =>
    intro st hnd
    rw [List.map_cons, List.nodup_cons] at hnd
    obtain ⟨hne, hnd'⟩ := hnd
    rw [List.foldl_cons, ih _ hnd']
    by_cases hk : e.1 = icao
    · subst hk
      have h0 : getA rest e.1 = none := getA_eq_none_of_not_mem _ _ hne
      have hgc : getA (e :: rest) e.1 = some e.2 := by
        rcases e with ⟨k, v⟩
        simp [getA]
      simp only [h0, hgc]
      rw [rebStep_now, getA_setA_self]
    · have hgc : getA (e :: rest) icao = getA rest icao := by
        rcases e with ⟨k, v⟩
        simp only [getA]
        rw [if_neg hk]
      rw [hgc]
      rcases hg : getA rest icao with _ | p
      · simp only []
        rw [rebStep_now, getA_setA_ne _ _ _ _ (fun hc => hk hc.symm)]
      · rfl

theorem rebFold_mapcs (s : Store) : ∀ (l : List (Str × Point)) (st : Store) (k : Str)
    (v : Str × Int),
    getA (l.foldl (rebStep s) st).mapcs k = some v →
    getA st.mapcs k = some v ∨
      ∃ e ∈ l, e.2.callsign ≠ [] ∧ k = normalizeCallsign e.2.callsign ∧
        v = (e.1, s.retention) := by
  intro l
  induction l with
  | nil => intro st k v h; left; exact h
  | cons e rest ih =>
    intro st k v h
    rw [List.foldl_cons] at h
    rcases ih _ k v h with h1 | ⟨e', he', h2, h3, h4⟩
    · rw [rebStep_mapcs] at h1
      by_cases hc : e.2.callsign = []
      · rw [if_pos hc] at h1
        left
        exact h1
      · rw [if_neg hc] at h1
        by_cases hk : k = normalizeCallsign e.2.callsign
        · subst hk
          rw [getA_setA_self] at h1
          injection h1 with h1'
          right
          exact ⟨e, List.mem_cons_self _ _, hc, rfl, h1'.symm⟩
        · rw [getA_setA_ne _ _ _ _ hk] at h1
          left
          exact h1
    · right
      exact ⟨e', List.mem_cons_of_mem _ he', h2, h3, h4⟩

theorem padDigits_length : ∀ (k n : Nat), (padDigits k n).length = k := by
  intro k
  induction k with
  | zero => intro n; rfl
  | succ j ih => intro n; simp [padDigits, ih]

theorem idxOfColon_append : ∀ (x : Str), ':' ∉ x → ∀ (y : Str),
    idxOfColon (x ++ ':' :: y) = some x.length := by
  intro x
  induction x with
  | nil => intro _ y; simp [idxOfColon]
  | cons c rest ih =>
    intro h y
    rw [List.mem_cons] at h
    push_neg at h
    have hc : ¬(c = ':') := fun hc' => h.1 hc'.symm
    rw [List.cons_append, idxOfColon]
    rw [if_neg hc, ih h.2 y]
    rfl

theorem take_append_self {α : Type} : ∀ (x y : List α), (x ++ y).take x.length = x := by
  intro x
  induction x with
  | nil => intro y; rfl
  | cons c rest ih => intro y; simp [ih]

theorem pad10_eq (ts : Int) (h1 : 0 ≤ ts) (h2 : ts < 10 ^ 10) :
    pad10 ts = padDigits 10 ts.toNat := by
  rw [pad10, if_neg (by omega), if_pos h2]

theorem parsePosKey_posKey (icao : Str) (ts : Int) (h1 : icao ≠ []) (h2 : ':' ∉ icao)
    (h3 : 0 ≤ ts) (h4 : ts < 10 ^ 10) :
    parsePosKey (posKey icao ts) = some icao := by
  have hkey : posKey icao ts = ['p', 'o', 's', ':'] ++ (icao ++ ':' :: pad10 ts) := by
    rw [posKey]
    have hstr1 : str "pos:" = ['p', 'o', 's', ':'] := rfl
    have hstr2 : str ":" = [':'] := rfl
    rw [hstr1, hstr2]
    simp
  have hplen : (pad10 ts).length = 10 := by
    rw [pad10_eq ts h3 h4, padDigits_length]
  have hlen' : ¬((['p', 'o', 's', ':'] ++ (icao ++ ':' :: pad10 ts)).length ≤ 5) := by
    simp only [List.length_append, List.length_cons, List.length_nil, hplen]
    omega
  rw [hkey]
  show (if (['p', 'o', 's', ':'] ++ (icao ++ ':' :: pad10 ts)).length ≤ 5 then none
        else
          match idxOfColon ((['p', 'o', 's', ':'] ++ (icao ++ ':' :: pad10 ts)).drop 4) with
          | none => none
          | some sep =>
            if sep = 0 then none
            else some (((['p', 'o', 's', ':'] ++ (icao ++ ':' :: pad10 ts)).drop 4).take sep)) =
      some icao
  rw [if_neg hlen']
  have hdrop : (['p', 'o', 's', ':'] ++ (icao ++ ':' :: pad10 ts)).drop 4 =
      icao ++ ':' :: pad10 ts := rfl
  rw [hdrop, idxOfColon_append icao h2 (pad10 ts)]
  have hic : 1 ≤ icao.length := by
    cases icao with
    | nil => exact absurd rfl h1
    | cons c r => simp
  show (if icao.length = 0 then none else some ((icao ++ ':' :: pad10 ts).take icao.length)) =
    some icao
  rw [if_neg (by omega)]
  rw [take_append_self]

theorem strLt_append_left : ∀ (p x y : Str), strLt (p ++ x) (p ++ y) = strLt x y := by
  intro p
  induction p with
  | nil => intro x y; rfl
  | cons c rest ih =>
    intro x y
    rw [List.cons_append, List.cons_append, strLt]
    simp [ih]

theorem digitChar_toNat : ∀ d : Nat, d < 10 → (Nat.digitChar d).toNat = 48 + d := by
  decide

theorem padDigits_mod : ∀ (k n : Nat), padDigits k (n % 10 ^ k) = padDigits k n := by
  intro k
  induction k with
  | zero => intro n; rfl
  | succ j ih =>
    intro n
    rw [padDigits, padDigits]
    have hp : (10 : Nat) ^ (j + 1) = 10 ^ j * 10 := pow_succ 10 j
    have hdig : n % 10 ^ (j + 1) / 10 ^ j % 10 = n / 10 ^ j % 10 := by
      rw [hp, Nat.mod_mul_right_div_self]
      exact Nat.mod_mod_of_dvd _ dvd_rfl
    rw [hdig]
    have htail : padDigits j (n % 10 ^ (j + 1)) = padDigits j n := by
      have h1 : n % 10 ^ (j + 1) % 10 ^ j = n % 10 ^ j := by
        apply Nat.mod_mod_of_dvd
        exact ⟨10, by ring⟩
      calc padDigits j (n % 10 ^ (j + 1))
          = padDigits j (n % 10 ^ (j + 1) % 10 ^ j) := (ih _).symm
        _ = padDigits j (n % 10 ^ j) := by rw [h1]
        _ = padDigits j n := ih n
    rw [htail]

theorem padDigits_lt : ∀ (k n m : Nat), n < 10 ^ k → m < 10 ^ k →
    strLt (padDigits k n) (padDigits k m) = decide (n < m) := by
  intro k
  induction k with
  | zero =>
    intro n m hn hm
    rw [pow_zero] at hn hm
    have hn0 : n = 0 := by omega
    have hm0 : m = 0 := by omega
    subst hn0
    subst hm0
    rfl
  | succ j ih =>
    intro n m hn hm
    rw [padDigits, padDigits, strLt]
    have hp : (10 : Nat) ^ (j + 1) = 10 ^ j * 10 := pow_succ 10 j
    have hn10 : n / 10 ^ j < 10 := Nat.div_lt_of_lt_mul (by omega)
    have hm10 : m / 10 ^ j < 10 := Nat.div_lt_of_lt_mul (by omega)
    have hdn : n / 10 ^ j % 10 = n / 10 ^ j := Nat.mod_eq_of_lt hn10
    have hdm : m / 10 ^ j % 10 = m / 10 ^ j := Nat.mod_eq_of_lt hm10
    rw [hdn, hdm, digitChar_toNat _ hn10, digitChar_toNat _ hm10]
    have hjpos : 0 < 10 ^ j := by positivity
    have key : ∀ a b : Nat, a / 10 ^ j < b / 10 ^ j → a < b := by
      intro a b hab
      by_contra hc
      push_neg at hc
      have hd : b / 10 ^ j ≤ a / 10 ^ j := Nat.div_le_div_right hc
      omega
    by_cases h1 : n / 10 ^ j < m / 10 ^ j
    · rw [if_pos (by omega)]
      have hnm : n < m := key n m h1
      simp [hnm]
    · by_cases h2 : m / 10 ^ j < n / 10 ^ j
      · rw [if_neg (by omega), if_pos (by omega)]
        have hnm : ¬(n < m) := by
          have := key m n h2
          omega
        simp [hnm]
      · rw [if_neg (by omega), if_neg (by omega)]
        have hq : n / 10 ^ j = m / 10 ^ j := by omega
        rw [← padDigits_mod j n, ← padDigits_mod j m]
        rw [ih _ _ (Nat.mod_lt _ hjpos) (Nat.mod_lt _ hjpos)]
        have e1 := Nat.div_add_mod n (10 ^ j)
        have e2 := Nat.div_add_mod m (10 ^ j)
        rw [hq] at e1
        have hiff : (n % 10 ^ j < m % 10 ^ j) ↔ n < m := by
          generalize 10 ^ j * (m / 10 ^ j) = t at e1 e2
          omega
        exact decide_eq_decide.mpr hiff

theorem posKey_lt (icao : Str) (t1 t2 : Int) (h1 : 0 ≤ t1) (h2 : t1 < 10 ^ 10)
    (h3 : 0 ≤ t2) (h4 : t2 < 10 ^ 10) :
    strLt (posKey icao t1) (posKey icao t2) = decide (t1 < t2) := by
  have hk : ∀ t : Int, posKey icao t = (['p', 'o', 's', ':'] ++ icao ++ [':']) ++ pad10 t := by
    intro t
    rw [posKey]
    have hstr1 : str "pos:" = ['p', 'o', 's', ':'] := rfl
    have hstr2 : str ":" = [':'] := rfl
    rw [hstr1, hstr2]
  rw [hk, hk, strLt_append_left]
  rw [pad10_eq t1 h1 h2, pad10_eq t2 h3 h4]
  rw [padDigits_lt 10 t1.toNat t2.toNat (by omega) (by omega)]
  by_cases hc : t1 < t2
  · have h5 : t1.toNat < t2.toNat := by omega
    simp [hc, h5]
  · have h5 : ¬(t1.toNat < t2.toNat) := by omega
    simp [hc, h5]

theorem posWF_parse (s : Store) (hWF : posWF s) (e : Str × (Point × Int)) (he : e ∈ s.pos) :
    parsePosKey e.1 = some e.2.1.icao24 := by
  obtain ⟨hk, h3, h4, h1, h2⟩ := hWF e he
  rw [hk]
  exact parsePosKey_posKey _ _ h1 h2 h3 h4

/-- Claim C7 (corrected): on a well-formed history, `RebuildNow` restores
`now:{icao}` to the per-icao argmax-by-ts sample (ascending zero-padded key
scan, last assignment wins) with TTL `nowTTL`, leaves other `now` entries
unchanged, and re-establishes only primary `map:cs:{normalizeCallsign(cs)}`
mappings (TTL `retention`) — the alternate (IATA↔ICAO converted) callsign
mapping is never written by `RebuildNow`. -/
theorem claim_C7_amended (s : Store) (hWF : posWF s) : rebuildSpec s := by
  refine ⟨?_, ?_, ?_⟩
  · intro icao he
    obtain ⟨e0, he0, hicao0⟩ := he
    have hp0 : parsePosKey e0.1 = some icao := by
      rw [posWF_parse s hWF e0 he0, hicao0]
    rcases hlh : lastHit icao (sortByKey s.pos) with _ | f
    · exact absurd hp0
        (lastHit_none icao _ hlh e0 ((mem_sortByKey e0 s.pos).mpr he0))
    · obtain ⟨hfmem, hfp⟩ := lastHit_mem icao _ f hlh
      have hfpos : f ∈ s.pos := (mem_sortByKey f s.pos).mp hfmem
      have hficao : f.2.1.icao24 = icao := by
        have hpp := posWF_parse s hWF f hfpos
        rw [hpp] at hfp
        injection hfp
      have hlat : getA (rebuildLatest s) icao = some f.2.1 := by
        rw [getA_rebuildLatest, hlh]
      have hnel : ¬(rebuildLatest s = []) := by
        intro h
        rw [h] at hlat
        cases hlat
      refine ⟨f.2.1, ?_, hficao, ⟨f, hfpos, rfl⟩, ?_⟩
      · rw [RebuildNow_eq, if_neg hnel]
        rw [rebFold_now s icao _ _ (rebuildLatest_keys_nodup s)]
        simp only [hlat]
      · intro e he hice
        have hpe : parsePosKey e.1 = some icao := by
          rw [posWF_parse s hWF e he, hice]
        have hmax := lastHit_max icao (sortByKey s.pos) f (sortByKey_pairwise s.pos) hlh
          e ((mem_sortByKey e s.pos).mpr he) hpe
        obtain ⟨hkf, hf3, hf4, _, _⟩ := hWF f hfpos
        obtain ⟨hke, he3, he4, _, _⟩ := hWF e he
        rw [hkf, hke, hficao, hice] at hmax
        rw [posKey_lt icao _ _ hf3 hf4 he3 he4] at hmax
        have : ¬(f.2.1.ts < e.2.1.ts) := by
          intro hc
          rw [decide_eq_true hc] at hmax
          cases hmax
        omega
  · intro icao hno
    have hlh : lastHit icao (sortByKey s.pos) = none := by
      rcases h : lastHit icao (sortByKey s.pos) with _ | f
      · rfl
      · obtain ⟨hfmem, hfp⟩ := lastHit_mem icao _ f h
        have hfpos : f ∈ s.pos := (mem_sortByKey f s.pos).mp hfmem
        have hpp := posWF_parse s hWF f hfpos
        rw [hpp] at hfp
        injection hfp with hfp'
        exact absurd hfp' (hno f hfpos)
    rw [RebuildNow_eq]
    by_cases hl : rebuildLatest s = []
    · rw [if_pos hl]
    · rw [if_neg hl]
      rw [rebFold_now s icao _ _ (rebuildLatest_keys_nodup s)]
      have hlat : getA (rebuildLatest s) icao = none := by
        rw [getA_rebuildLatest, hlh]
      simp only [hlat]
  · intro k v h
    rw [RebuildNow_eq] at h
    by_cases hl : rebuildLatest s = []
    · rw [if_pos hl] at h
      left
      exact h
    · rw [if_neg hl] at h
      rcases rebFold_mapcs s _ _ k v h with h1 | ⟨el, hel, hc, hk, hv⟩
      · left
        exact h1
      · right
        obtain ⟨e, he, hpe, hval⟩ := mem_rebuildLatest s el hel
        have hpp := posWF_parse s hWF e he
        rw [hpp] at hpe
        injection hpe with hpe'
        refine ⟨e, he, ?_, ?_, ?_⟩
        · rw [← hval]
          exact hc
        · rw [hk, hval]
        · rw [hv, hpe']

theorem claim_C7_amended_witness : posWF c7Store ∧ rebuildSpec c7Store :=
  ⟨by unfold posWF; decide, claim_C7_amended c7Store (by unfold posWF; decide)⟩

theorem toNat_ofNat_valid (n : Nat) (h : n < 55296) : (Char.ofNat n).toNat = n := by
  have hv : n.isValidChar := Or.inl h
  rw [Char.ofNat, dif_pos hv]
  rfl

theorem goUpChar_toNat (c : Char) :
    (goUpChar c).toNat = if 97 ≤ c.toNat ∧ c.toNat ≤ 122 then c.toNat - 32 else c.toNat := by
  rw [goUpChar]
  by_cases h : 97 ≤ c.toNat ∧ c.toNat ≤ 122
  · rw [if_pos h, if_pos h, toNat_ofNat_valid _ (by omega)]
  · rw [if_neg h, if_neg h]

theorem goUpChar_idem (c : Char) : goUpChar (goUpChar c) = goUpChar c := by
  have h1 := goUpChar_toNat c
  rw [goUpChar]
  by_cases h : 97 ≤ (goUpChar c).toNat ∧ (goUpChar c).toNat ≤ 122
  · exfalso
    by_cases h2 : 97 ≤ c.toNat ∧ c.toNat ≤ 122
    · rw [if_pos h2] at h1
      omega
    · rw [if_neg h2] at h1
      omega
  · rw [if_neg h]

theorem isSpaceGo_goUpChar (c : Char) : isSpaceGo (goUpChar c) = isSpaceGo c := by
  have h1 := goUpChar_toNat c
  rw [isSpaceGo, isSpaceGo]
  by_cases h2 : 97 ≤ c.toNat ∧ c.toNat ≤ 122
  · rw [if_pos h2] at h1
    rw [h1]
    have ha : ∀ m : Nat, 97 ≤ m → m ≤ 122 →
        ((decide (m - 32 = 32) || decide (m - 32 = 9) || decide (m - 32 = 10) ||
          decide (m - 32 = 11) || decide (m - 32 = 12) || decide (m - 32 = 13)) =
         (decide (m = 32) || decide (m = 9) || decide (m = 10) ||
          decide (m = 11) || decide (m = 12) || decide (m = 13))) := by
      intro m hm1 hm2
      have e1 : ¬(m - 32 = 32) := by omega
      have e2 : ¬(m - 32 = 9) := by omega
      have e3 : ¬(m - 32 = 10) := by omega
      have e4 : ¬(m - 32 = 11) := by omega
      have e5 : ¬(m - 32 = 12) := by omega
      have e6 : ¬(m - 32 = 13) := by omega
      have f1 : ¬(m = 32) := by omega
      have f2 : ¬(m = 9) := by omega
      have f3 : ¬(m = 10) := by omega
      have f4 : ¬(m = 11) := by omega
      have f5 : ¬(m = 12) := by omega
      have f6 : ¬(m = 13) := by omega
      simp [e1, e2, e3, e4, e5, e6, f1, f2, f3, f4, f5, f6]
    exact ha c.toNat h2.1 h2.2
  · rw [if_neg h2] at h1
    rw [h1]

theorem goUp_idem (x : Str) : goUp (goUp x) = goUp x := by
  rw [goUp, goUp, List.map_map]
  apply List.map_congr_left
  intro c _
  exact goUpChar_idem c

theorem dropWhile_idem {α : Type} (p : α → Bool) : ∀ l : List α,
    (l.dropWhile p).dropWhile p = l.dropWhile p := by
  intro l
  induction l with
  | nil => rfl
  | cons c t ih =>
    by_cases h : p c = true
    · rw [List.dropWhile_cons_of_pos h, ih]
    · have h' : p c = false := by simpa using h
      rw [List.dropWhile_cons_of_neg (by simp [h']), List.dropWhile_cons_of_neg (by simp [h'])]

theorem ltrim_idem (x : Str) : ltrim (ltrim x) = ltrim x := dropWhile_idem _ x

theorem rtrim_idem (x : Str) : rtrim (rtrim x) = rtrim x := by
  rw [rtrim, rtrim, List.reverse_reverse, dropWhile_idem]

theorem dropWhile_head_false {α : Type} (p : α → Bool) : ∀ (l : List α) (c : α) (t : List α),
    l.dropWhile p = c :: t → p c = false := by
  intro l
  induction l with
  | nil => intro c t h; cases h
  | cons d r ih =>
    intro c t h
    by_cases hd : p d = true
    · rw [List.dropWhile_cons_of_pos hd] at h
      exact ih c t h
    · have hd' : p d = false := by simpa using hd
      rw [List.dropWhile_cons_of_neg (by simp [hd'])] at h
      injection h with h1 h2
      rw [← h1]
      exact hd'

theorem rtrim_prefix (z : Str) : rtrim z <+: z := by
  rw [rtrim]
  have h1 : z.reverse.dropWhile isSpaceGo <:+ z.reverse := List.dropWhile_suffix _
  have h2 : (z.reverse.dropWhile isSpaceGo).reverse <+: (z.reverse).reverse :=
    List.reverse_prefix.mpr h1
  simpa using h2

theorem ltrim_rtrim_ltrim (x : Str) : ltrim (rtrim (ltrim x)) = rtrim (ltrim x) := by
  rcases hz : ltrim x with _ | ⟨c, t⟩
  · rw [show rtrim [] = [] from rfl]
    rfl
  · have hc : isSpaceGo c = false := dropWhile_head_false _ x c t hz
    rcases hr : rtrim (c :: t) with _ | ⟨d, u⟩
    · rfl
    · have hp : rtrim (c :: t) <+: (c :: t) := rtrim_prefix _
      rw [hr] at hp
      obtain ⟨rest, hrest⟩ := hp
      have hd : d = c := by
        have := hrest
        rw [List.cons_append] at this
        injection this with h1 _
      rw [ltrim, List.dropWhile_cons_of_neg]
      rw [hd, hc]
      simp

theorem goTrim_idem (x : Str) : goTrim (goTrim x) = goTrim x := by
  rw [goTrim, goTrim, ltrim_rtrim_ltrim, rtrim_idem]

theorem ltrim_goUp (x : Str) : ltrim (goUp x) = goUp (ltrim x) := by
  rw [ltrim, ltrim, goUp, goUp, List.dropWhile_map]
  have hp : (isSpaceGo ∘ goUpChar) = isSpaceGo := by
    funext c
    exact isSpaceGo_goUpChar c
  rw [hp]

theorem rtrim_goUp (x : Str) : rtrim (goUp x) = goUp (rtrim x) := by
  rw [rtrim, rtrim, goUp, goUp, ← List.map_reverse, List.dropWhile_map]
  have hp : (isSpaceGo ∘ goUpChar) = isSpaceGo := by
    funext c
    exact isSpaceGo_goUpChar c
  rw [hp, List.map_reverse]

theorem goTrim_goUp (x : Str) : goTrim (goUp x) = goUp (goTrim x) := by
  rw [goTrim, goTrim, ltrim_goUp, rtrim_goUp]

theorem normalizeCallsign_idem (x : Str) :
    normalizeCallsign (normalizeCallsign x) = normalizeCallsign x := by
  rw [normalizeCallsign, normalizeCallsign, goTrim_goUp, goUp_idem, goTrim_idem]

theorem ltrim_eq_self (l : Str) (h : ∀ c, l.head? = some c → isSpaceGo c = false) :
    ltrim l = l := by
  cases l with
  | nil => rfl
  | cons c t =>
    rw [ltrim, List.dropWhile_cons_of_neg]
    simp [h c rfl]

theorem rtrim_eq_self (l : Str) (h : ∀ c, l.reverse.head? = some c → isSpaceGo c = false) :
    rtrim l = l := by
  rw [rtrim]
  cases hr : l.reverse with
  | nil =>
    have : l = [] := by simpa using congrArg List.reverse hr
    simp [this]
  | cons c t =>
    rw [List.dropWhile_cons_of_neg]
    · rw [← hr, List.reverse_reverse]
    · have := h c (by rw [hr]; rfl)
      simp [this]

theorem goUp_eq_self (l : Str) (h : ∀ c ∈ l, goUpChar c = c) : goUp l = l := by
  rw [goUp]
  exact List.map_congr_left h |>.trans (List.map_id l)

theorem normalized_chars (x : Str) : ∀ c ∈ normalizeCallsign x, goUpChar c = c := by
  intro c hc
  rw [normalizeCallsign, goUp] at hc
  obtain ⟨d, _, hd⟩ := List.mem_map.mp hc
  rw [← hd]
  exact goUpChar_idem d

theorem normalized_revhead (x : Str) : ∀ c, (normalizeCallsign x).reverse.head? = some c →
    isSpaceGo c = false := by
  intro c hc
  rw [normalizeCallsign, goTrim, goUp, ← List.map_reverse, rtrim, List.reverse_reverse] at hc
  cases hd : (ltrim x).reverse.dropWhile isSpaceGo with
  | nil => rw [hd] at hc; cases hc
  | cons d t =>
    rw [hd] at hc
    injection hc with hc'
    rw [← hc', isSpaceGo_goUpChar]
    exact dropWhile_head_false _ _ d t hd

theorem dropWhile_length_le {α : Type} (p : α → Bool) : ∀ l : List α,
    (l.dropWhile p).length ≤ l.length := by
  intro l
  induction l with
  | nil => simp
  | cons c t ih =>
    by_cases h : p c = true
    · rw [List.dropWhile_cons_of_pos h]
      simp only [List.length_cons]
      omega
    · have h' : p c = false := by simpa using h
      rw [List.dropWhile_cons_of_neg (by simp [h'])]

theorem normalized_head (x : Str) : ∀ c, (normalizeCallsign x).head? = some c →
    isSpaceGo c = false := by
  intro c hc
  rw [normalizeCallsign, goTrim, goUp] at hc
  cases hn : rtrim (ltrim x) with
  | nil => rw [hn] at hc; cases hc
  | cons d u =>
    rw [hn] at hc
    injection hc with hc'
    have hp : (d :: u) <+: ltrim x := hn ▸ rtrim_prefix (ltrim x)
    obtain ⟨rest, hrest⟩ := hp
    have hlt : ltrim (ltrim x) = ltrim x := ltrim_idem x
    rw [← hrest] at hlt
    rw [List.cons_append] at hlt
    have hd : isSpaceGo d = false := by
      by_contra hcon
      have hd' : isSpaceGo d = true := by simpa using hcon
      rw [ltrim, List.dropWhile_cons_of_pos hd'] at hlt
      have hlen := congrArg List.length hlt
      have hle := dropWhile_length_le isSpaceGo (u ++ rest)
      simp only [List.length_cons] at hlen
      omega
    rw [← hc', isSpaceGo_goUpChar]
    exact hd

theorem getA_mem {α : Type} : ∀ (l : List (Str × α)) (k : Str) (v : α),
    getA l k = some v → (k, v) ∈ l := by
  intro l
  induction l with
  | nil => intro k v h; cases h
  | cons e rest ih =>
    intro k v h
    rw [getA] at h
    by_cases he : e.1 = k
    · rw [if_pos he] at h
      injection h with h'
      have hekv : e = (k, v) := Prod.ext he h'
      rw [← hekv]
      exact List.mem_cons_self _ _
    · rw [if_neg he] at h
      exact List.mem_cons_of_mem _ (ih k v h)

theorem takeWhile_append_all {α : Type} (p : α → Bool) : ∀ (x y : List α),
    (∀ c ∈ x, p c = true) → (x ++ y).takeWhile p = x ++ y.takeWhile p := by
  intro x
  induction x with
  | nil => intro y _; rfl
  | cons c t ih =>
    intro y h
    rw [List.cons_append, List.takeWhile_cons_of_pos (h c (List.mem_cons_self _ _)),
      ih y (fun d hd => h d (List.mem_cons_of_mem _ hd))]
    rfl

theorem dropWhile_append_all {α : Type} (p : α → Bool) : ∀ (x y : List α),
    (∀ c ∈ x, p c = true) → (x ++ y).dropWhile p = y.dropWhile p := by
  intro x
  induction x with
  | nil => intro y _; rfl
  | cons c t ih =>
    intro y h
    rw [List.cons_append, List.dropWhile_cons_of_pos (h c (List.mem_cons_self _ _)),
      ih y (fun d hd => h d (List.mem_cons_of_mem _ hd))]

theorem takeWhile_append_short {α : Type} (p : α → Bool) : ∀ (x y : List α),
    (∃ c ∈ x, p c = false) →
    (x ++ y).takeWhile p = x.takeWhile p ∧ (x.takeWhile p).length < x.length := by
  intro x
  induction x with
  | nil => intro y h; simp at h
  | cons c t ih =>
    intro y h
    by_cases hc : p c = true
    · obtain ⟨d, hd, hdp⟩ := h
      have hd' : d ∈ t := by
        rcases List.mem_cons.mp hd with h1 | h1
        · rw [h1] at hdp; rw [hc] at hdp; cases hdp
        · exact h1
      obtain ⟨ih1, ih2⟩ := ih y ⟨d, hd', hdp⟩
      rw [List.cons_append, List.takeWhile_cons_of_pos hc, List.takeWhile_cons_of_pos hc, ih1]
      constructor
      · rfl
      · simpa using ih2
    · have hc' : p c = false := by simpa using hc
      rw [List.cons_append, List.takeWhile_cons_of_neg (by simp [hc']),
        List.takeWhile_cons_of_neg (by simp [hc'])]
      constructor
      · rfl
      · simp

theorem isUpperAlpha_fix (c : Char) (h : isUpperAlpha c = true) :
    goUpChar c = c ∧ isSpaceGo c = false := by
  rw [isUpperAlpha] at h
  have h2 : 65 ≤ c.toNat ∧ c.toNat ≤ 90 := by
    constructor <;> [exact Nat.le_of_ble_eq_true (by simpa using (Bool.and_elim_left h));
      exact Nat.le_of_ble_eq_true (by simpa using (Bool.and_elim_right h))]
  constructor
  · rw [goUpChar, if_neg (by omega)]
  · rw [isSpaceGo]
    have e1 : ¬(c.toNat = 32) := by omega
    have e2 : ¬(c.toNat = 9) := by omega
    have e3 : ¬(c.toNat = 10) := by omega
    have e4 : ¬(c.toNat = 11) := by omega
    have e5 : ¬(c.toNat = 12) := by omega
    have e6 : ¬(c.toNat = 13) := by omega
    simp [e1, e2, e3, e4, e5, e6]

set_option maxRecDepth 4000 in
theorem tableFacts : ∀ e ∈ iataIcaoTable,
    e.1.length = 2 ∧ e.2.length = 3 ∧
    (∀ c ∈ e.1, goUpChar c = c ∧ isSpaceGo c = false) ∧
    (∀ c ∈ e.2, isUpperAlpha c = true) ∧
    getA icaoIataTable e.2 = some e.1 ∧ getA iataIcaoTable e.1 = some e.2 := by
  decide

theorem normalize_nil : normalizeCallsign [] = [] := rfl

/-- Unfolding of `convertCallsignAlternate` on an already-normalized input. -/
theorem alt_unfold (k : Str) (hk : normalizeCallsign k = k) :
    convertCallsignAlternate k =
      (if k = [] then []
       else if (k.takeWhile isUpperAlpha).length = 0 then []
       else if (k.takeWhile isUpperAlpha).length = 2 then
         match getA iataIcaoTable (k.takeWhile isUpperAlpha) with
         | some icao => icao ++ k.dropWhile isUpperAlpha
         | none => []
       else if (k.takeWhile isUpperAlpha).length = 3 then
         match getA icaoIataTable (k.takeWhile isUpperAlpha) with
         | some iata => iata ++ k.dropWhile isUpperAlpha
         | none => []
       else []) := by
  rw [convertCallsignAlternate, hk]

theorem alt_shape (k : Str) (hk : normalizeCallsign k = k)
    (h : ¬(convertCallsignAlternate k = [])) :
    ∃ e ∈ iataIcaoTable,
      (k.takeWhile isUpperAlpha = e.1 ∧
        convertCallsignAlternate k = e.2 ++ k.dropWhile isUpperAlpha) ∨
      (k.takeWhile isUpperAlpha = e.2 ∧
        convertCallsignAlternate k = e.1 ++ k.dropWhile isUpperAlpha) := by
  rw [alt_unfold k hk] at h ⊢
  by_cases h0 : k = []
  · rw [if_pos h0] at h
    exact absurd rfl h
  · rw [if_neg h0] at h ⊢
    by_cases h1 : (k.takeWhile isUpperAlpha).length = 0
    · rw [if_pos h1] at h
      exact absurd rfl h
    · rw [if_neg h1] at h ⊢
      by_cases h2 : (k.takeWhile isUpperAlpha).length = 2
      · rw [if_pos h2] at h ⊢
        rcases hg : getA iataIcaoTable (k.takeWhile isUpperAlpha) with _ | icao
        · rw [hg] at h
          exact absurd rfl h
        · refine ⟨(k.takeWhile isUpperAlpha, icao), getA_mem _ _ _ hg, ?_⟩
          left
          exact ⟨rfl, rfl⟩
      · rw [if_neg h2] at h ⊢
        by_cases h3 : (k.takeWhile isUpperAlpha).length = 3
        · rw [if_pos h3] at h ⊢
          rcases hg : getA icaoIataTable (k.takeWhile isUpperAlpha) with _ | iata
          · rw [hg] at h
            exact absurd rfl h
          · have hmem := getA_mem _ _ _ hg
            rw [icaoIataTable] at hmem
            obtain ⟨e, he, heq⟩ := List.mem_map.mp hmem
            have he2 : e.2 = k.takeWhile isUpperAlpha := congrArg Prod.fst heq
            have he1 : e.1 = iata := congrArg Prod.snd heq
            refine ⟨e, he, ?_⟩
            right
            refine ⟨he2.symm, ?_⟩
            rw [he1]
        · rw [if_neg h3] at h
          exact absurd rfl h

theorem suf_takeWhile (k : Str) :
    (k.dropWhile isUpperAlpha).takeWhile isUpperAlpha = [] := by
  cases hd : k.dropWhile isUpperAlpha with
  | nil => rfl
  | cons c t =>
    have hc : isUpperAlpha c = false := dropWhile_head_false _ k c t hd
    rw [List.takeWhile_cons_of_neg (by simp [hc])]

theorem suf_dropWhile (k : Str) :
    (k.dropWhile isUpperAlpha).dropWhile isUpperAlpha = k.dropWhile isUpperAlpha :=
  dropWhile_idem _ k

/-- The alternate callsign of a normalized callsign is itself normalized. -/
theorem alt_normalized (k : Str) (hk : normalizeCallsign k = k) :
    normalizeCallsign (convertCallsignAlternate k) = convertCallsignAlternate k := by
  by_cases h : convertCallsignAlternate k = []
  · rw [h, normalize_nil]
  · obtain ⟨e, he, hcase⟩ := alt_shape k hk h
    obtain ⟨hlen1, hlen2, hfix1, hupper2, _, _⟩ := tableFacts e he
    have hsufmem : ∀ c ∈ k.dropWhile isUpperAlpha, c ∈ k := by
      intro c hc
      exact List.dropWhile_sublist isUpperAlpha |>.mem hc
    have hkchars : ∀ c ∈ k, goUpChar c = c := by
      intro c hc
      rw [← hk] at hc
      exact normalized_chars k c hc
    have hrevk : ∀ c, k.reverse.head? = some c → isSpaceGo c = false := by
      intro c hc
      apply normalized_revhead k c
      rw [hk]
      exact hc
    have main : ∀ code : Str, code ≠ [] →
        (∀ c ∈ code, goUpChar c = c ∧ isSpaceGo c = false) →
        normalizeCallsign (code ++ k.dropWhile isUpperAlpha) =
          code ++ k.dropWhile isUpperAlpha := by
      intro code hne hcode
      have hup : ∀ c ∈ code ++ k.dropWhile isUpperAlpha, goUpChar c = c := by
        intro c hc
        rcases List.mem_append.mp hc with h1 | h1
        · exact (hcode c h1).1
        · exact hkchars c (hsufmem c h1)
      have hhead : ∀ c, (code ++ k.dropWhile isUpperAlpha).head? = some c →
          isSpaceGo c = false := by
        intro c hc
        cases code with
        | nil => exact absurd rfl hne
        | cons c0 t0 =>
          rw [List.cons_append] at hc
          injection hc with hc'
          rw [← hc']
          exact (hcode c0 (List.mem_cons_self _ _)).2
      have hrev : ∀ c, (code ++ k.dropWhile isUpperAlpha).reverse.head? = some c →
          isSpaceGo c = false := by
        intro c hc
        rw [List.reverse_append] at hc
        cases hsuf : k.dropWhile isUpperAlpha with
        | nil =>
          rw [hsuf] at hc
          simp only [List.reverse_nil, List.nil_append] at hc
          cases hcode0 : code.reverse with
          | nil =>
            rw [hcode0] at hc
            cases hc
          | cons d u =>
            rw [hcode0] at hc
            injection hc with hc'
            have hd : d ∈ code := by
              have : d ∈ code.reverse := by rw [hcode0]; exact List.mem_cons_self _ _
              simpa using this
            rw [← hc']
            exact (hcode d hd).2
        | cons s0 t0 =>
          have hksplit : k = k.takeWhile isUpperAlpha ++ k.dropWhile isUpperAlpha :=
            (List.takeWhile_append_dropWhile _ _).symm
          have hkrev : k.reverse =
              (k.dropWhile isUpperAlpha).reverse ++ (k.takeWhile isUpperAlpha).reverse := by
            rw [← List.reverse_append, ← hksplit]
          have hne0 : (k.dropWhile isUpperAlpha).reverse ≠ [] := by
            rw [hsuf]
            simp
          cases hsr : (k.dropWhile isUpperAlpha).reverse with
          | nil => exact absurd hsr hne0
          | cons r0 ru =>
            rw [hsr] at hc
            rw [List.cons_append] at hc
            injection hc with hc'
            apply hrevk c
            rw [hkrev, hsr, List.cons_append, hc']
            rfl
      rw [normalizeCallsign, goTrim]
      rw [ltrim_eq_self _ hhead, rtrim_eq_self _ hrev, goUp_eq_self _ hup]
    rcases hcase with ⟨hpre, halt⟩ | ⟨hpre, halt⟩
    · rw [halt]
      apply main e.2 (by intro hc; rw [hc] at hlen2; cases hlen2)
      intro c hc
      exact isUpperAlpha_fix c (hupper2 c hc)
    · rw [halt]
      apply main e.1 (by intro hc; rw [hc] at hlen1; cases hlen1)
      exact hfix1

/-- Converting the alternate back: either it returns the original callsign
(pure-letter airline codes) or nothing (codes containing a digit, whose
uppercase-prefix scan cannot recover them). -/
theorem alt_alt (k : Str) (hk : normalizeCallsign k = k)
    (h : ¬(convertCallsignAlternate k = [])) :
    convertCallsignAlternate (convertCallsignAlternate k) = k ∨
    convertCallsignAlternate (convertCallsignAlternate k) = [] := by
  obtain ⟨e, he, hcase⟩ := alt_shape k hk h
  obtain ⟨hlen1, hlen2, hfix1, hupper2, hback32, hback23⟩ := tableFacts e he
  have hna := alt_normalized k hk
  have hksplit : k = k.takeWhile isUpperAlpha ++ k.dropWhile isUpperAlpha :=
    (List.takeWhile_append_dropWhile _ _).symm
  rcases hcase with ⟨hpre, halt⟩ | ⟨hpre, halt⟩
  · -- k had the 2-letter IATA prefix e.1; alternate is e.2 ++ suf, all-upper code
    left
    rw [halt] at hna ⊢
    have htw : (e.2 ++ k.dropWhile isUpperAlpha).takeWhile isUpperAlpha = e.2 := by
      rw [takeWhile_append_all _ _ _ hupper2, suf_takeWhile, List.append_nil]
    have hdw : (e.2 ++ k.dropWhile isUpperAlpha).dropWhile isUpperAlpha =
        k.dropWhile isUpperAlpha := by
      rw [dropWhile_append_all _ _ _ hupper2, suf_dropWhile]
    rw [alt_unfold _ hna]
    have hne2 : ¬(e.2 ++ k.dropWhile isUpperAlpha = []) := by
      intro hc
      rw [List.append_eq_nil] at hc
      rw [hc.1] at hlen2
      cases hlen2
    rw [if_neg hne2, htw, hdw, hlen2]
    rw [if_neg (by omega), if_neg (by omega), if_pos rfl, hback32]
    rw [← hpre]
    exact hksplit.symm
  · -- k had the 3-letter ICAO prefix e.2; alternate is e.1 ++ suf
    rw [halt] at hna ⊢
    by_cases hall : ∀ c ∈ e.1, isUpperAlpha c = true
    · left
      have htw : (e.1 ++ k.dropWhile isUpperAlpha).takeWhile isUpperAlpha = e.1 := by
        rw [takeWhile_append_all _ _ _ hall, suf_takeWhile, List.append_nil]
      have hdw : (e.1 ++ k.dropWhile isUpperAlpha).dropWhile isUpperAlpha =
          k.dropWhile isUpperAlpha := by
        rw [dropWhile_append_all _ _ _ hall, suf_dropWhile]
      rw [alt_unfold _ hna]
      have hne1 : ¬(e.1 ++ k.dropWhile isUpperAlpha = []) := by
        intro hc
        rw [List.append_eq_nil] at hc
        rw [hc.1] at hlen1
        cases hlen1
      rw [if_neg hne1, htw, hdw, hlen1]
      rw [if_neg (by omega), if_pos rfl, hback23]
      rw [← hpre]
      exact hksplit.symm
    · right
      push_neg at hall
      obtain ⟨c0, hc0, hc0f⟩ := hall
      have hc0f' : isUpperAlpha c0 = false := by simpa using hc0f
      obtain ⟨hshort, hlt⟩ :=
        takeWhile_append_short isUpperAlpha e.1 (k.dropWhile isUpperAlpha) ⟨c0, hc0, hc0f'⟩
      rw [alt_unfold _ hna]
      have hne1 : ¬(e.1 ++ k.dropWhile isUpperAlpha = []) := by
        intro hc
        rw [List.append_eq_nil] at hc
        rw [hc.1] at hlen1
        cases hlen1
      rw [if_neg hne1, hshort]
      have hlen : (e.1.takeWhile isUpperAlpha).length < 2 := by omega
      by_cases hz : (e.1.takeWhile isUpperAlpha).length = 0
      · rw [if_pos hz]
      · rw [if_neg hz, if_neg (by omega), if_neg (by omega)]

theorem mwf_write (m : List (Str × (Str × Int))) (hm : mwf m) (cs : Str) (hcs : cs ≠ [])
    (hncs : normalizeCallsign cs = cs) (val : Str × Int) :
    mwf (if convertCallsignAlternate cs = [] then setA m cs val
         else setA (setA m cs val) (convertCallsignAlternate cs) val) := by
  by_cases ha : convertCallsignAlternate cs = []
  · rw [if_pos ha]
    intro k v h
    by_cases hk : k = cs
    · subst hk
      rw [getA_setA_self] at h
      refine ⟨hcs, hncs, ?_⟩
      intro h1 _
      exact absurd ha h1
    · rw [getA_setA_ne _ _ _ _ hk] at h
      obtain ⟨hk1, hk2, hk3⟩ := hm k v h
      refine ⟨hk1, hk2, ?_⟩
      intro h1 h2
      have hold := hk3 h1 h2
      by_cases hac : convertCallsignAlternate k = cs
      · rw [hac, ha] at h2
        exact absurd h2.symm hk1
      · rw [getA_setA_ne _ _ _ _ hac]
        exact hold
  · rw [if_neg ha]
    have hgcs : getA (setA (setA m cs val) (convertCallsignAlternate cs) val) cs = some val := by
      by_cases hacs : convertCallsignAlternate cs = cs
      · rw [hacs, getA_setA_self]
      · rw [getA_setA_ne _ _ _ _ (fun hc => hacs hc.symm)]
        exact getA_setA_self _ _ _
    intro k v h
    by_cases hk : k = cs
    · subst hk
      rw [hgcs] at h
      injection h with h'
      refine ⟨hcs, hncs, ?_⟩
      intro h1 h2
      rw [← h']
      exact getA_setA_self _ _ _
    · by_cases hka : k = convertCallsignAlternate cs
      · have hv : val = v := by
          rw [hka, getA_setA_self] at h
          injection h
        refine ⟨?_, ?_, ?_⟩
        · rw [hka]
          exact ha
        · rw [hka]
          exact alt_normalized cs hncs
        · intro h1 h2
          rcases alt_alt cs hncs ha with hinv | hnil
          · rw [hka] at h2 ⊢
            rw [hinv] at h2 ⊢
            rw [← hv]
            exact hgcs
          · rw [hka, hnil] at h1
            exact absurd rfl h1
      · rw [getA_setA_ne _ _ _ _ hka, getA_setA_ne _ _ _ _ hk] at h
        obtain ⟨hk1, hk2, hk3⟩ := hm k v h
        refine ⟨hk1, hk2, ?_⟩
        intro h1 h2
        have hold := hk3 h1 h2
        by_cases hac : convertCallsignAlternate k = cs
        · rw [hac] at h2
          exact absurd h2.symm hka
        · by_cases haa : convertCallsignAlternate k = convertCallsignAlternate cs
          · rcases alt_alt cs hncs ha with hinv | hnil
            · rw [haa, hinv] at h2
              exact absurd h2.symm hk
            · rw [haa, hnil] at h2
              exact absurd h2.symm hk1
          · rw [getA_setA_ne _ _ _ _ haa, getA_setA_ne _ _ _ _ hac]
            exact hold

theorem upsertRow_mapcs (nowT : Int) (s : Store) (st : Row) (s' : Store)
    (h : upsertRow nowT s st = some s') :
    s'.mapcs = s.mapcs ∨
    ∃ cs icao : Str, cs ≠ [] ∧ normalizeCallsign cs = cs ∧
      s'.mapcs =
        (if convertCallsignAlternate cs = [] then setA s.mapcs cs (icao, s.retention)
         else setA (setA s.mapcs cs (icao, s.retention)) (convertCallsignAlternate cs)
           (icao, s.retention)) := by
  rw [upsertRow] at h
  by_cases h1 : st.length < 7
  · rw [if_pos h1] at h
    injection h with h'
    left
    rw [← h']
  · rw [if_neg h1] at h
    dsimp only at h
    by_cases h2 : normalizeICAO (asGoString (rowGet st 0)) = []
    · rw [if_pos h2] at h
      injection h with h'
      left
      rw [← h']
    · rw [if_neg h2] at h
      rcases h5 : toFloat (rowGet st 5) with _ | lonF <;> rw [h5] at h
      · rcases h6 : toFloat (rowGet st 6) with _ | latF <;> rw [h6] at h
        · injection h with h'
          left
          rw [← h']
        · injection h with h'
          left
          rw [← h']
      · rcases h6 : toFloat (rowGet st 6) with _ | latF <;> rw [h6] at h
        · injection h with h'
          left
          rw [← h']
        · dsimp only at h
          by_cases h7 : (lonF.isNaN || latF.isNaN) = true
          · rw [if_pos h7] at h
            injection h with h'
            left
            rw [← h']
          · rw [if_neg h7] at h
            by_cases h8 : 13 < st.length
            · rw [if_pos h8] at h
              injection h with h'
              by_cases h9 : normalizeCallsign (asGoString (rowGet st 1)) = []
              · left
                rw [← h']
                simp [h9]
              · right
                refine ⟨normalizeCallsign (asGoString (rowGet st 1)),
                  normalizeICAO (asGoString (rowGet st 0)), h9,
                  normalizeCallsign_idem _, ?_⟩
                rw [← h']
                by_cases h10 :
                    convertCallsignAlternate (normalizeCallsign (asGoString (rowGet st 1))) = []
                · rw [if_pos h10]
                  simp [h9, h10]
                · rw [if_neg h10]
                  simp [h9, h10]
            · rw [if_neg h8] at h
              cases h

theorem UpsertStates_mwf : ∀ (rows : List Row) (nowT : Int) (s s' : Store),
    mwf s.mapcs → UpsertStates nowT rows s = some s' → mwf s'.mapcs := by
  intro rows
  induction rows with
  | nil =>
    intro nowT s s' hm h
    rw [UpsertStates, List.foldlM] at h
    injection h with h'
    rw [← h']
    exact hm
  | cons r rs ih =>
    intro nowT s s' hm h
    rw [UpsertStates, List.foldlM] at h
    rcases hu : upsertRow nowT s r with _ | s1 <;> rw [hu] at h
    · cases h
    · have hm1 : mwf s1.mapcs := by
        rcases upsertRow_mapcs nowT s r s1 hu with heq | ⟨cs, icao, hc1, hc2, hc3⟩
        · rw [heq]
          exact hm
        · rw [hc3]
          exact mwf_write s.mapcs hm cs hc1 hc2 (icao, s.retention)
      exact ih nowT s1 s' hm1 h

theorem UpsertReachable_mwf (s : Store) (h : UpsertReachable s) : mwf s.mapcs := by
  induction h with
  | base r =>
    intro k v hk
    cases hk
  | step nowT batch hr hup ih =>
    exact UpsertStates_mwf _ nowT _ _ ih hup

theorem alt_norm (cs0 : Str) :
    convertCallsignAlternate (normalizeCallsign cs0) = convertCallsignAlternate cs0 := by
  rw [convertCallsignAlternate, convertCallsignAlternate, normalizeCallsign_idem]

theorem LatestByCallsign_hit (s : Store) (c : Str) (v : Str × Int)
    (h : getA s.mapcs (normalizeCallsign c) = some v) :
    LatestByCallsign s c =
      (match getA s.now v.1 with
       | some u => some u.1
       | none => none) := by
  rw [LatestByCallsign]
  simp only [h]

/-- Claim C8 (corrected): for stores built by `UpsertStates` alone, the
primary and alternate callsign mappings agree — `LatestByCallsign` returns
the same point on a callsign and its alternate — PROVIDED the alternate
converts back to the original callsign (pure-letter airline codes); and the
proviso is necessary even without `RebuildNow`: with a digit-bearing code
(JBU↔B6), a later row for the B6 callsign rewrites only the B6 mapping, and
the two lookups then differ. -/
theorem claim_C8_amended :
    (∀ s : Store, UpsertReachable s → ∀ cs0 : Str,
      (getA s.mapcs (normalizeCallsign cs0)).isSome = true →
      (getA s.mapcs (convertCallsignAlternate cs0)).isSome = true →
      convertCallsignAlternate (convertCallsignAlternate cs0) = normalizeCallsign cs0 →
      LatestByCallsign s cs0 = LatestByCallsign s (convertCallsignAlternate cs0)) ∧
    (c8JbuStore.map (fun s => LatestByCallsign s (str "JBU100")) ≠
        c8JbuStore.map (fun s => LatestByCallsign s (str "B6100")) ∧
      convertCallsignAlternate (str "JBU100") = str "B6100" ∧
      c8JbuStore.isSome = true) := by
  constructor
  · intro s hreach cs0 h1 h2 h3
    have hm := UpsertReachable_mwf s hreach
    obtain ⟨v, hv⟩ := Option.isSome_iff_exists.mp h1
    obtain ⟨w, hw⟩ := Option.isSome_iff_exists.mp h2
    have ha : convertCallsignAlternate (normalizeCallsign cs0) = convertCallsignAlternate cs0 :=
      alt_norm cs0
    have hane : ¬(convertCallsignAlternate cs0 = []) := by
      intro hc
      rw [hc] at hw
      obtain ⟨hne, _, _⟩ := hm [] w hw
      exact hne rfl
    obtain ⟨hkne, hknorm, hkpair⟩ := hm (normalizeCallsign cs0) v hv
    have hpair : getA s.mapcs (convertCallsignAlternate cs0) = some v := by
      have hres := hkpair (by rw [ha]; exact hane) (by rw [ha, h3])
      rw [ha] at hres
      exact hres
    obtain ⟨_, hanorm, _⟩ := hm (convertCallsignAlternate cs0) w hw
    have hL1 := LatestByCallsign_hit s cs0 v hv
    have hL2 := LatestByCallsign_hit s (convertCallsignAlternate cs0) v (by rw [hanorm]; exact hpair)
    rw [hL1, hL2]
  · refine ⟨?_, by decide, by decide⟩
    decide

set_option maxRecDepth 8000 in
theorem claim_C8_amended_witness :
    UpsertStates 100 [c8RowA] (emptyStore 604800) = some c8UpStore ∧
    LatestByCallsign c8UpStore (str "AAL100") =
      LatestByCallsign c8UpStore (convertCallsignAlternate (str "AAL100")) :=
  ⟨by decide, claim_C8_amended.1 c8UpStore
    (UpsertReachable.step 100 [c8RowA] (UpsertReachable.base 604800) (by decide))
    (str "AAL100") (by decide) (by decide) (by decide)⟩

end MiniFlightRadar
